import Mathlib

/-!
# Verification of the CvsViewOnline volumetric analysis core

Shallow embedding of the repository's analysis pipeline:

* `src/utils/lesionAnalysis.js` — union-find based 3D connected-component
  labeling (`findConnectedComponents`);
* `src/utils/imageProcessing.js` (in `src/unnamed/part_000`) —
  `calculatePercentile`, `calculateContrastPercentiles`, `zNormalize`;
* `src/components/SliceViewer.js` (labeled-mask variant) — the render-window
  computation, window/level grayscale mapping and the lesion-boundary
  overlay test.

JS numbers are modeled as `ℚ` (exact arithmetic; the spec describes the
real-number behavior).  `Int32Array` buffers hold only values in `[0, size]`
here, so they are modeled as `Array ℕ`; out-of-bounds writes on a JS typed
array are silently dropped and out-of-bounds reads yield `undefined`, which
we model with `Array.setD` (no-op when out of bounds) and `Array.getD _ _ 0`.
The only reachable out-of-bounds access in `findConnectedComponents` is the
write `parent[1]` for a 1-voxel volume, where both `undefined` (JS) and the
default `0` (here) fail the `parent[i] === i` root test and the
`labelMap.has` test, producing the same final result (`labels[0] = 0`).
-/

namespace CvsView

/-! ## 3D indexing (`getIndex` in lesionAnalysis.js) -/

/-- `getIndex = (x, y, z) => x + y * width + z * width * height`. -/
def getIndex (W H : ℕ) (x y z : ℕ) : ℕ := x + y * W + z * W * H

/-- `x` recovered from a flat index, as in pass 2 of the source:
`rem = i % (width*height); x = rem % width`. -/
def decodeX (W H : ℕ) (i : ℕ) : ℕ := i % (W * H) % W

/-- `y` recovered from a flat index: `rem = i % (width*height); y = ⌊rem / width⌋`. -/
def decodeY (W H : ℕ) (i : ℕ) : ℕ := i % (W * H) / W

/-- `z` recovered from a flat index: `z = ⌊i / (width*height)⌋`. -/
def decodeZ (W H : ℕ) (i : ℕ) : ℕ := i / (W * H)

/-- The scan order of pass 1: outer loop over `z`, then `y`, then `x`. -/
def scanOrder (W H D : ℕ) : List (ℕ × ℕ × ℕ) :=
  (List.range D).flatMap fun z =>
    (List.range H).flatMap fun y =>
      (List.range W).map fun x => (x, y, z)

/-! ## Union-find (`find` / `union` in lesionAnalysis.js)

The JS `find` runs `while (i !== parent[i]) { parent[i] = parent[parent[i]];
i = parent[i]; }` with path compression.  Under the code's invariant
`parent[j] ≤ j` the loop index strictly decreases, so `i + 1` iterations
always suffice; we embed the loop with that fuel. -/

/-- One-step-indexed embedding of the JS `find` loop body (with path
compression), returning the found root and the compressed parent array. -/
def findAux : ℕ → Array ℕ → ℕ → ℕ × Array ℕ
  | 0, p, i => (i, p)
  | fuel + 1, p, i =>
    if p.getD i 0 = i then (i, p)
    else
      let p2 := p.setD i (p.getD (p.getD i 0) 0)
      findAux fuel p2 (p2.getD i 0)

/-- `find` of lesionAnalysis.js. -/
def find (p : Array ℕ) (i : ℕ) : ℕ × Array ℕ := findAux (i + 1) p i

/-- Mutation-free root of `i` (the value the JS `find` returns); used in
specifications. -/
def rootAux : ℕ → Array ℕ → ℕ → ℕ
  | 0, _, i => i
  | fuel + 1, p, i => if p.getD i 0 = i then i else rootAux fuel p (p.getD i 0)

/-- The root of `i` in the parent forest (no mutation). -/
def rootD (p : Array ℕ) (i : ℕ) : ℕ := rootAux (i + 1) p i

/-- `union` of lesionAnalysis.js: find both roots and attach the larger root
under the smaller one. -/
def union (p : Array ℕ) (i j : ℕ) : Array ℕ :=
  let fi := find p i
  let fj := find fi.2 j
  if fi.1 ≠ fj.1 then
    if fi.1 < fj.1 then fj.2.setD fj.1 fi.1 else fj.2.setD fi.1 fj.1
  else fj.2

/-! ## Pass 1: provisional labels -/

/-- The 13 already-visited neighbor offsets `[dx, dy, dz]` of the source. -/
def neighborOffsets : List (ℤ × ℤ × ℤ) :=
  [(-1, -1, -1), (0, -1, -1), (1, -1, -1),
   (-1, 0, -1), (0, 0, -1), (1, 0, -1),
   (-1, 1, -1), (0, 1, -1), (1, 1, -1),
   (-1, -1, 0), (0, -1, 0), (1, -1, 0),
   (-1, 0, 0)]

/-- The `neighborLabels` list collected for voxel `(x, y, z)`: for every
offset, if the neighbor is in bounds and carries a positive provisional
label, that label is pushed. -/
def collectNeighborLabels (W H D : ℕ) (labels : Array ℕ) (x y z : ℕ) : List ℕ :=
  neighborOffsets.filterMap fun d =>
    let nx : ℤ := (x : ℤ) + d.1
    let ny : ℤ := (y : ℤ) + d.2.1
    let nz : ℤ := (z : ℤ) + d.2.2
    if 0 ≤ nx ∧ nx < (W : ℤ) ∧ 0 ≤ ny ∧ ny < (H : ℤ) ∧ 0 ≤ nz ∧ nz < (D : ℤ) then
      let l := labels.getD (getIndex W H nx.toNat ny.toNat nz.toNat) 0
      if 0 < l then some l else none
    else none

/-- State threaded through pass 1.  `data` is the caller's mask buffer: the
source reads it (`data[idx] > 0.5`) and never assigns to it, which the
embedding mirrors by carrying it through every step. -/
structure Pass1State where
  data : List ℚ
  labels : Array ℕ
  parent : Array ℕ
  nextLabel : ℕ
deriving Repr

/-- The pass-1 loop body at voxel `(x, y, z)`: threshold at `0.5`, collect
previously assigned neighbor labels, then either create a fresh label or
take the minimum neighbor label and union every neighbor label with it. -/
def pass1Step (W H D : ℕ) (s : Pass1State) (v : ℕ × ℕ × ℕ) : Pass1State :=
  let idx := getIndex W H v.1 v.2.1 v.2.2
  if s.data.getD idx 0 > (1 / 2 : ℚ) then
    match collectNeighborLabels W H D s.labels v.1 v.2.1 v.2.2 with
    | [] =>
      { s with labels := s.labels.setD idx s.nextLabel,
               parent := s.parent.setD s.nextLabel s.nextLabel,
               nextLabel := s.nextLabel + 1 }
    | h :: t =>
      let m := (h :: t).foldl (fun mn l => if l < mn then l else mn) h
      { s with labels := s.labels.setD idx m,
               parent := (h :: t).foldl (fun p l => union p l m) s.parent }
  else s

/-- Pass 1 over the whole volume, starting from zeroed `labels`/`parent`
(`new Int32Array(size)`) and `nextLabel = 1`. -/
def pass1 (data : List ℚ) (W H D : ℕ) : Pass1State :=
  (scanOrder W H D).foldl (pass1Step W H D)
    { data := data
      labels := Array.mkArray (W * H * D) 0
      parent := Array.mkArray (W * H * D) 0
      nextLabel := 1 }

/-! ## Pass 2: root remap, final labels, centroids -/

/-- The provisional labels `i ∈ [1, nextLabel)` that are their own root, in
ascending order (the enumeration order of the source's remap loop). -/
def rootLabels (s : Pass1State) : List ℕ :=
  (List.range' 1 (s.nextLabel - 1)).filter fun i => s.parent.getD i 0 = i

/-- `labelMap.get(r)`: the source assigns the dense final ids `1, 2, …` to
the roots in ascending enumeration order, so the `k`-th root (0-based)
gets final id `k + 1`. -/
def labelMapGet (roots : List ℕ) (r : ℕ) : Option ℕ :=
  if r ∈ roots then some (roots.indexOf r + 1) else none

/-- One entry of the `centroids` map: running sums keyed by final label. -/
structure Cent where
  key : ℕ
  xs : ℕ
  ys : ℕ
  zs : ℕ
  cnt : ℕ
deriving DecidableEq, Repr

/-- `centroids` update for one voxel: a JS `Map` keeps insertion order, so a
new key is appended and an existing key is updated in place. -/
def updateCent (cs : List Cent) (k x y z : ℕ) : List Cent :=
  if cs.any fun c => c.key = k then
    cs.map fun c =>
      if c.key = k then
        { c with xs := c.xs + x, ys := c.ys + y, zs := c.zs + z, cnt := c.cnt + 1 }
      else c
  else cs ++ [{ key := k, xs := x, ys := y, zs := z, cnt := 1 }]

/-- State threaded through pass 2. -/
structure Pass2State where
  data : List ℚ
  labels : Array ℕ
  parent : Array ℕ
  cents : List Cent
deriving Repr

/-- The pass-2 loop body at flat index `i`: resolve the provisional label to
its root (with path compression persisting in `parent`), rewrite `labels[i]`
with the dense final id and accumulate the centroid sums; the source zeroes
the voxel in the (unreachable for `size ≥ 2`) case that the root is not in
`labelMap`. -/
def pass2Step (W H : ℕ) (roots : List ℕ) (s : Pass2State) (i : ℕ) : Pass2State :=
  let l := s.labels.getD i 0
  if 0 < l then
    let fr := find s.parent l
    match labelMapGet roots fr.1 with
    | some fl =>
      { s with labels := s.labels.setD i fl
               parent := fr.2
               cents := updateCent s.cents fl (decodeX W H i) (decodeY W H i) (decodeZ W H i) }
    | none => { s with labels := s.labels.setD i 0, parent := fr.2 }
  else s

/-- Pass 2 over all flat indices, with `labelMap` computed once from the
pass-1 parent array. -/
def pass2 (W H D : ℕ) (s1 : Pass1State) : Pass2State :=
  (List.range (W * H * D)).foldl (pass2Step W H (rootLabels s1))
    { data := s1.data, labels := s1.labels, parent := s1.parent, cents := [] }

/-- `Math.round` for the (nonnegative) centroid means: round half up. -/
def jsRound (q : ℚ) : ℤ := ⌊q + 1 / 2⌋

/-- A Lesion Record as pushed by the source. -/
structure Lesion where
  id : ℕ
  x : ℤ
  y : ℤ
  z : ℤ
  volume : ℕ
deriving DecidableEq, Repr

/-- `lesionList`: every centroid entry with count `> 10`, in map insertion
order, turned into a record. -/
def mkLesions (cs : List Cent) : List Lesion :=
  (cs.filter fun c => 10 < c.cnt).map fun c =>
    { id := c.key
      x := jsRound ((c.xs : ℚ) / (c.cnt : ℚ))
      y := jsRound ((c.ys : ℚ) / (c.cnt : ℚ))
      z := jsRound ((c.zs : ℚ) / (c.cnt : ℚ))
      volume := c.cnt }

/-- `lesionList.sort((a, b) => b.volume - a.volume)`: stable sort, volume
descending. -/
def sortLesions (ls : List Lesion) : List Lesion :=
  ls.mergeSort fun a b => b.volume ≤ a.volume

/-- The result of `findConnectedComponents`.  `dataAfter` records the
contents of the caller's mask buffer when the call returns (the source
never assigns to `data`, so every step of the embedding carries it
unchanged); `labeledMask` is the freshly allocated `labels` buffer that the
source returns. -/
structure CCLResult where
  dataAfter : List ℚ
  labeledMask : Array ℕ
  lesions : List Lesion
deriving Repr

/-- `findConnectedComponents(data, dims)` of `src/utils/lesionAnalysis.js`. -/
def findConnectedComponents (data : List ℚ) (dims : ℕ × ℕ × ℕ) : CCLResult :=
  let s2 := pass2 dims.1 dims.2.1 dims.2.2 (pass1 data dims.1 dims.2.1 dims.2.2)
  { dataAfter := s2.data
    labeledMask := s2.labels
    lesions := sortLesions (mkLesions s2.cents) }

/-! ## Percentile / normalization engine (`src/unnamed/part_000`, the
`imageProcessing` utilities) -/

/-- `calculatePercentile(sortedData, percentile)`:
`index = Math.floor((percentile / 100) * sortedData.length)`, then
`sortedData[Math.min(index, sortedData.length - 1)]`.  (For an empty list
JS reads index `-1` and yields `undefined`; all uses have nonempty input.) -/
def calculatePercentile (sorted : List ℚ) (p : ℚ) : ℚ :=
  sorted.getD (min ⌊p / 100 * sorted.length⌋ ((sorted.length : ℤ) - 1)).toNat 0

/-- The stride-100 subsample `for (i = 0; i < len; i += 100) push(data[i])`:
indices `0, 100, …`, i.e. `⌈len / 100⌉` samples. -/
def sampleStride100 (data : List ℚ) : List ℚ :=
  (List.range ((data.length + 99) / 100)).map fun k => data.getD (100 * k) 0

/-- `calculateContrastPercentiles(data)`: stride-100 subsample, sort
ascending, then the percentiles `1` and `99.99` — the percentiles are
hard-coded in the definition, which takes only `data`. -/
def calculateContrastPercentiles (data : List ℚ) : ℚ × ℚ :=
  let sorted := (sampleStride100 data).mergeSort fun a b => a ≤ b
  (calculatePercentile sorted 1, calculatePercentile sorted (9999 / 100))

/-- The call shape used at every App.js call site,
e.g. `calculateContrastPercentiles(normFlairStar, 2.0, 99.5)`: JavaScript
silently drops arguments beyond the declared parameter list, so the passed
percentile pair never reaches the computation. -/
def calculateContrastPercentilesCalled (data : List ℚ) (low high : ℚ) : ℚ × ℚ :=
  calculateContrastPercentiles data

/-- The behavior the spec ascribes to the percentile engine (written from
the spec's words, for comparison): index the sorted stride-100 subsample at
`floor(p/100 * sampleCount)` clamped, **at the caller-chosen pair**. -/
def contrastPercentilesClaimed (data : List ℚ) (low high : ℚ) : ℚ × ℚ :=
  let sorted := (sampleStride100 data).mergeSort fun a b => a ≤ b
  (calculatePercentile sorted low, calculatePercentile sorted high)

/-- The accumulation loop `for (...) sum += data[i]` of `zNormalize`. -/
def listSum (data : List ℚ) : ℚ := data.foldl (· + ·) 0

/-- `mean = sum / n` in `zNormalize`. -/
def zMean (data : List ℚ) : ℚ := listSum data / data.length

/-- The loop `sumSq += diff * diff` with `diff = data[i] - mean`. -/
def zSumSq (data : List ℚ) : ℚ :=
  data.foldl (fun acc v => acc + (v - zMean data) * (v - zMean data)) 0

/-- `std = Math.sqrt(sumSq / n)`; the square root forces the codomain `ℝ`. -/
noncomputable def zStd (data : List ℚ) : ℝ :=
  Real.sqrt ((zSumSq data / data.length : ℚ) : ℝ)

/-- `zNormalize(data)`: population mean and standard deviation (divisor
`N`), output a new buffer of `(value - mean) / (std || 1)` — the zero
standard deviation is substituted by `1`. -/
noncomputable def zNormalize (data : List ℚ) : List ℝ :=
  data.map fun (v : ℚ) =>
    ((v : ℝ) - (zMean data : ℝ)) / (if zStd data = 0 then 1 else zStd data)

/-! ## Slice projector (`src/components/SliceViewer.js`, labeled-mask
variant; the render-window formulas are shared verbatim with
`renderSliceToDataURL` in `src/unnamed/part_000`) -/

/-- The three anatomical viewing axes. -/
inductive Axis
  | x
  | y
  | z
deriving DecidableEq, Repr

/-- Volume dimensions `[dimX, dimY, dimZ]`. -/
structure Dims where
  X : ℕ
  Y : ℕ
  Z : ℕ
deriving DecidableEq, Repr

/-- Voxel sizes `[pixX, pixY, pixZ]`. -/
structure PixDims where
  X : ℚ
  Y : ℚ
  Z : ℚ
deriving DecidableEq, Repr

/-- The current cursor voxel `{x, y, z}`. -/
structure Coords where
  x : ℕ
  y : ℕ
  z : ℕ
deriving DecidableEq, Repr

/-- In-plane width of the rendered slice. -/
def fullWidth (d : Dims) : Axis → ℕ
  | .x => d.Y
  | .y => d.X
  | .z => d.X

/-- In-plane height of the rendered slice. -/
def fullHeight (d : Dims) : Axis → ℕ
  | .x => d.Z
  | .y => d.Z
  | .z => d.Y

/-- The per-axis flat-index function `getVal(i, j)` (over `ℤ`, because the
source applies it to unclamped coordinates). -/
def getVal (d : Dims) (c : Coords) : Axis → ℤ → ℤ → ℤ
  | .x, i, j => (c.x : ℤ) + i * d.X + j * d.X * d.Y
  | .y, i, j => i + (c.y : ℤ) * d.X + j * d.X * d.Y
  | .z, i, j => i + j * d.X + (c.z : ℤ) * d.X * d.Y

/-- `pixelAspectRatio`: the per-axis voxel-size ratio with the source's two
guards — zero components fall back to `1`, and a non-finite or nonpositive
ratio falls back to `1.0` (in `ℚ` only the nonpositive guard can fire, and
a zero divisor makes the `ℚ` ratio `0`, likewise caught). -/
def pixelAspectRatio (p : PixDims) (axis : Axis) : ℚ :=
  let a0 : ℚ :=
    match axis with
    | .x => if p.Z ≠ 0 ∧ p.Y ≠ 0 then p.Z / p.Y else 1
    | .y => if p.Z ≠ 0 ∧ p.X ≠ 0 then p.Z / p.X else 1
    | .z => if p.Y ≠ 0 ∧ p.X ≠ 0 then p.Y / p.X else 1
  if a0 ≤ 0 then 1 else a0

/-- In-plane cursor position `(cx, cy)` with the vertical flip. -/
def cursorPos (d : Dims) (c : Coords) : Axis → ℤ × ℤ
  | .x => ((c.y : ℤ), (fullHeight d .x : ℤ) - 1 - c.z)
  | .y => ((c.x : ℤ), (fullHeight d .y : ℤ) - 1 - c.z)
  | .z => ((c.x : ℤ), (fullHeight d .z : ℤ) - 1 - c.y)

/-- The zoomed-mode render window `(renderWidth, renderHeight, startI,
startJ)`: square physical field of view `min(dimX,dimY,dimZ) / fovZoom`,
aspect-corrected height, centered on the cursor, then clamped with
`startI = max(0, min(fullWidth - renderWidth, startI))` (and likewise for
`startJ`). -/
def renderWindow (d : Dims) (p : PixDims) (axis : Axis) (c : Coords) (fovZoom : ℚ) :
    ℤ × ℤ × ℤ × ℤ :=
  let minDim : ℕ := min d.X (min d.Y d.Z)
  let pss : ℚ := (minDim : ℚ) / fovZoom
  let rw : ℤ := ⌈pss⌉
  let rh : ℤ := ⌈pss / pixelAspectRatio p axis⌉
  let cxy := cursorPos d c axis
  let startI := max 0 (min ((fullWidth d axis : ℤ) - rw) ⌊(cxy.1 : ℚ) - (rw : ℚ) / 2⌋)
  let startJ := max 0 (min ((fullHeight d axis : ℤ) - rh) ⌊(cxy.2 : ℚ) - (rh : ℚ) / 2⌋)
  (rw, rh, startI, startJ)

/-- A JS array read `arr[i]` at a possibly negative index; negative and
overflowing indices yield `undefined`, which every comparison in the pixel
loop treats like the default `0` here (`undefined > 0.5` is `false`). -/
def lookupQ (l : List ℚ) (i : ℤ) : ℚ :=
  if 0 ≤ i then l.getD i.toNat 0 else 0

/-- Window/level mapping of one raw intensity (`SliceViewer.js` lines
315–330): `range = wMax - wMin || 1`, `pixelVal = ((val - wMin) / range) *
255` clamped to `[0, 255]` by the two sequential `if`s. -/
def windowedValue (raw wMin wMax : ℚ) : ℚ :=
  let range : ℚ := if wMax - wMin = 0 then 1 else wMax - wMin
  let pv := ((raw - wMin) / range) * 255
  if pv < 0 then 0 else if pv > 255 then 255 else pv

/-- The boundary test of the labeled-mask variant for a foreground pixel at
`(sourceI, jFlip)`: on the slice border, or one of the four in-plane
neighbors fails the `> 0.5` foreground test.  (The neighbor test reads the
mask *value*, not its label.) -/
def isEdge (d : Dims) (c : Coords) (axis : Axis) (lesionData : List ℚ)
    (sourceI jFlip : ℤ) : Bool :=
  if sourceI = 0 ∨ sourceI = (fullWidth d axis : ℤ) - 1 ∨ jFlip = 0 ∨
      jFlip = (fullHeight d axis : ℤ) - 1 then
    true
  else
    let n1 := lookupQ lesionData (getVal d c axis (sourceI + 1) jFlip) > (1 / 2 : ℚ)
    let n2 := lookupQ lesionData (getVal d c axis (sourceI - 1) jFlip) > (1 / 2 : ℚ)
    let n3 := lookupQ lesionData (getVal d c axis sourceI (jFlip + 1)) > (1 / 2 : ℚ)
    let n4 := lookupQ lesionData (getVal d c axis sourceI (jFlip - 1)) > (1 / 2 : ℚ)
    ¬n1 ∨ ¬n2 ∨ ¬n3 ∨ ¬n4

/-- One RGBA pixel of the labeled-mask rendering variant (channels kept in
`ℚ`; the canvas byte store quantizes afterwards).  A foreground mask voxel
that passes `isEdge` is painted green when its rounded label matches a
truthy `currentLesionLabel` and blue otherwise; every other pixel gets the
windowed grayscale in all three channels, alpha opaque. -/
def renderPixel (d : Dims) (c : Coords) (axis : Axis)
    (volData lesionData : List ℚ) (showMask : Bool) (currentLesionLabel : ℚ)
    (wMin wMax : ℚ) (sourceI jFlip : ℤ) : ℚ × ℚ × ℚ × ℚ :=
  let idx := getVal d c axis sourceI jFlip
  let pv := windowedValue (lookupQ volData idx) wMin wMax
  if showMask ∧ lookupQ lesionData idx > (1 / 2 : ℚ) ∧
      isEdge d c axis lesionData sourceI jFlip then
    let isCurrent := currentLesionLabel ≠ 0 ∧
      ((jsRound (lookupQ lesionData idx) : ℚ) = currentLesionLabel)
    (0, if isCurrent then 255 else 0, if isCurrent then 0 else 255, 255)
  else
    (pv, pv, pv, 255)

/-! ## Specification-side vocabulary for the labeling claims -/

/-- A voxel is foreground when its mask value passes the `> 0.5` threshold. -/
def isFg (data : List ℚ) (i : ℕ) : Prop := data.getD i 0 > (1 / 2 : ℚ)

instance (data : List ℚ) (i : ℕ) : Decidable (isFg data i) := by
  unfold isFg; infer_instance

/-- 26-connectivity of two (in-bounds, decoded) voxels: all three coordinate
differences are at most `1` and the voxels are distinct. -/
def adj26 (W H : ℕ) (u v : ℕ) : Prop :=
  u ≠ v ∧
    (decodeX W H u : ℤ) - decodeX W H v ∈ Set.Icc (-1 : ℤ) 1 ∧
    (decodeY W H u : ℤ) - decodeY W H v ∈ Set.Icc (-1 : ℤ) 1 ∧
    (decodeZ W H u : ℤ) - decodeZ W H v ∈ Set.Icc (-1 : ℤ) 1

instance (W H u v : ℕ) : Decidable (adj26 W H u v) := by
  unfold adj26; infer_instance

/-- One step of foreground 26-connectivity: both flat indices in bounds,
both foreground, 26-adjacent. -/
def fgAdj (data : List ℚ) (W H D : ℕ) (u v : ℕ) : Prop :=
  u < W * H * D ∧ v < W * H * D ∧ isFg data u ∧ isFg data v ∧ adj26 W H u v

/-- Foreground connectivity: the reflexive-transitive closure of `fgAdj`. -/
def connected (data : List ℚ) (W H D : ℕ) (u v : ℕ) : Prop :=
  Relation.ReflTransGen (fgAdj data W H D) u v

/-- The final label the algorithm leaves at flat index `i`. -/
def finalLabel (data : List ℚ) (dims : ℕ × ℕ × ℕ) (i : ℕ) : ℕ :=
  (findConnectedComponents data dims).labeledMask.getD i 0

/-- The number of connected components found before the size filter: the
number of union-find roots remapped to dense final ids. -/
def componentCount (data : List ℚ) (dims : ℕ × ℕ × ℕ) : ℕ :=
  (rootLabels (pass1 data dims.1 dims.2.1 dims.2.2)).length

/-- Concrete 3×3 labeled slice: all nine voxels foreground, the voxel right
of the center carrying label `2` while the rest carry label `1`. -/
def labelMask33 : List ℚ := [1, 1, 1, 1, 1, 2, 1, 1, 1]

/-- Concrete 15×1×1 mask: a 1-voxel component at index 0 (final id 1,
filtered out by the `>10` rule) and a 12-voxel component at indices 2–13
(final id 2, kept). -/
def mask15 : List ℚ := [1, 0, 1, 1, 1, 1, 1, 1, 1, 1, 1, 1, 1, 1, 0]

/-- Well-formedness of the union-find parent array with label counter `n`:
live labels `[1, n)` have parents in `[1, l]`, every parent pointer is
`≤` its index, and dead entries (index `0` or `≥ n`) are `0`. -/
structure UFInv (p : Array ℕ) (n : ℕ) : Prop where
  lower : ∀ l, 1 ≤ l → l < n → 1 ≤ p.getD l 0
  upper : ∀ l, p.getD l 0 ≤ l
  outside : ∀ l, l = 0 ∨ n ≤ l → p.getD l 0 = 0

/-- `u` is a previous neighbor of `v` in scan order: in bounds, 26-adjacent
and strictly earlier in the flat raster order. -/
def prevNeighbor (W H D : ℕ) (u v : ℕ) : Prop :=
  u < W * H * D ∧ v < W * H * D ∧ adj26 W H u v ∧ u < v

/-- Foreground connectivity using only voxels with flat index `< k` (the
prefix the scan has processed). -/
def connectedB (data : List ℚ) (W H D k : ℕ) (u v : ℕ) : Prop :=
  Relation.ReflTransGen (fun a b => a < k ∧ b < k ∧ fgAdj data W H D a b) u v

/-- The pass-1 loop invariant after the scan has processed the voxels with
flat index `< k`.  It packages: the data buffer is untouched; array sizes;
the label-counter bounds (`nextLabel ≤ k` once two voxels are processed —
the second scanned voxel is always 26-adjacent to the first, so at most one
of them opens a fresh label); the union-find well-formedness; the labels
semantics on processed/unprocessed voxels; soundness (adjacent processed
foreground voxels share a union-find root), completeness (equal roots imply
connectivity within the processed prefix), and coverage (every live label's
class contains the label of some processed foreground voxel). -/
structure P1Inv (data : List ℚ) (W H D : ℕ) (k : ℕ) (s : Pass1State) : Prop where
  hdata : s.data = data
  hlsize : s.labels.size = W * H * D
  hpsize : s.parent.size = W * H * D
  hnl1 : 1 ≤ s.nextLabel
  hnlk : s.nextLabel ≤ k + 1
  hnlk2 : 2 ≤ k → s.nextLabel ≤ k
  huf : UFInv s.parent s.nextLabel
  hfg : ∀ i, i < k → isFg data i → 1 ≤ s.labels.getD i 0 ∧ s.labels.getD i 0 < s.nextLabel
  hbg : ∀ i, i < k → ¬ isFg data i → s.labels.getD i 0 = 0
  hun : ∀ i, k ≤ i → s.labels.getD i 0 = 0
  hsound : ∀ u v, u < k → v < k → fgAdj data W H D u v →
      rootD s.parent (s.labels.getD u 0) = rootD s.parent (s.labels.getD v 0)
  hcomplete : ∀ u v, u < k → v < k → isFg data u → isFg data v →
      rootD s.parent (s.labels.getD u 0) = rootD s.parent (s.labels.getD v 0) →
      connectedB data W H D k u v
  hcover : ∀ l, 1 ≤ l → l < s.nextLabel →
      ∃ u, u < k ∧ isFg data u ∧
        rootD s.parent (s.labels.getD u 0) = rootD s.parent l


/-- The `Option`-valued final id that pass 2 assigns at flat index `i`, read
off from the pass-1 state: `some fl` when the voxel carries a live
provisional label whose root is in `labelMap`, `none` otherwise. -/
def finalMapped (roots : List ℕ) (s1 : Pass1State) (i : ℕ) : Option ℕ :=
  if 0 < s1.labels.getD i 0 then
    labelMapGet roots (rootD s1.parent (s1.labels.getD i 0))
  else none

/-- The number pass 2 leaves at flat index `i` (`0` when unmapped). -/
def finalOf (roots : List ℕ) (s1 : Pass1State) (i : ℕ) : ℕ :=
  (finalMapped roots s1 i).getD 0

/-- The flat indices `< j` that pass 2 maps to final id `fl`. -/
def occList (roots : List ℕ) (s1 : Pass1State) (j fl : ℕ) : List ℕ :=
  (List.range j).filter fun i => finalMapped roots s1 i = some fl

/-- The pass-2 loop invariant after processing flat indices `< j`: the data
buffer is untouched, array sizes are stable, processed entries of `labels`
hold their final id and unprocessed ones still hold the provisional label,
path compression has not changed any root, the union-find stays
well-formed, and `centroids` has pairwise-distinct keys whose counts are
exactly the number of processed voxels mapped to that key. -/
structure P2Inv (roots : List ℕ) (s1 : Pass1State) (j : ℕ) (s : Pass2State) : Prop where
  hdata : s.data = s1.data
  hlsize : s.labels.size = s1.labels.size
  hpsize : s.parent.size = s1.parent.size
  hdone : ∀ i, i < j → s.labels.getD i 0 = finalOf roots s1 i
  htodo : ∀ i, j ≤ i → s.labels.getD i 0 = s1.labels.getD i 0
  hroot : ∀ l, rootD s.parent l = rootD s1.parent l
  huf : UFInv s.parent s1.nextLabel
  hkeys : (s.cents.map Cent.key).Nodup
  hcnt : ∀ c ∈ s.cents, c.cnt = (occList roots s1 j c.key).length ∧
      occList roots s1 j c.key ≠ []
  hkey : ∀ fl i, i < j → finalMapped roots s1 i = some fl →
      ∃ c ∈ s.cents, c.key = fl

/-- Concrete volume for exercising the percentile engine: 101 voxels, value
`0` everywhere except value `5` at flat index 100 (so the stride-100
subsample is `[0, 5]`). -/
def percData : List ℚ := List.replicate 100 0 ++ [5]


end CvsView

/-! # Theorems -/

set_option maxRecDepth 200000

namespace CvsView

/-! ## Normalization (C9) -/

theorem foldl_add_eq (l : List ℚ) (a : ℚ) : l.foldl (· + ·) a = a + l.sum := by
  induction l generalizing a with
  | nil => simp
  | cons x xs ih => rw [List.foldl_cons, ih, List.sum_cons]; ring

theorem listSum_replicate (n : ℕ) (c : ℚ) : listSum (List.replicate n c) = n * c := by
  rw [listSum, foldl_add_eq, List.sum_replicate, zero_add, nsmul_eq_mul]

theorem zMean_replicate (n : ℕ) (c : ℚ) (h : n ≠ 0) :
    zMean (List.replicate n c) = c := by
  have hn : (n : ℚ) ≠ 0 := Nat.cast_ne_zero.mpr h
  rw [zMean, listSum_replicate, List.length_replicate]
  field_simp

theorem zSumSq_replicate (n : ℕ) (c : ℚ) (h : n ≠ 0) :
    zSumSq (List.replicate n c) = 0 := by
  have haux : ∀ (m : ℕ) (a : ℚ),
      (List.replicate m c).foldl (fun acc v => acc + (v - c) * (v - c)) a = a := by
    intro m
    induction m with
    | zero => intro a; simp
    | succ k ih => intro a; simp only [List.replicate_succ, List.foldl_cons, sub_self,
        mul_zero, add_zero]; exact ih a
  rw [zSumSq, zMean_replicate n c h, haux]

/-- **C9** (confirmed): for every constant-valued input volume, `zNormalize`
returns a buffer of the same length with every element `0`: the population
standard deviation is `0`, is substituted by `1`, and each output is
`(c - c) / 1 = 0`. -/
theorem zNormalize_constant_volume (n : ℕ) (c : ℚ) :
    zNormalize (List.replicate n c) = List.replicate n (0 : ℝ) := by
  rcases Nat.eq_zero_or_pos n with h | h
  · subst h; simp [zNormalize]
  · have hn : n ≠ 0 := h.ne'
    have hstd : zStd (List.replicate n c) = 0 := by
      rw [zStd, zSumSq_replicate n c hn]
      simp
    rw [zNormalize, List.map_replicate, hstd, zMean_replicate n c hn]
    simp

/-! ## Window/level grayscale mapping (C6) -/

/-- **C6** (counterexample): the claim asserts that a voxel whose raw value
equals `windowMax` always renders as `255`; with the degenerate window
`windowMin = windowMax = 0` (whose zero range the code substitutes by `1`)
the voxel value `0` equals `windowMax` yet renders as `0`. -/
theorem windowedValue_at_max_counterexample :
    ¬ (∀ raw wMin wMax : ℚ, raw = wMax → windowedValue raw wMin wMax = 255) := by
  intro hall
  have h := hall 0 0 0 rfl
  norm_num [windowedValue] at h

theorem clamp_ite_eq (q : ℚ) :
    (if q < 0 then 0 else if q > 255 then 255 else q) = max 0 (min 255 q) := by
  split_ifs with h1 h2
  · rw [min_eq_right (by linarith), max_eq_left (by linarith)]
  · rw [min_eq_left (by linarith), max_eq_right (by norm_num)]
  · rw [min_eq_right (by linarith), max_eq_right (by linarith)]

/-- **C6** (amended): every non-mask pixel gets the windowed grayscale
`clamp(((raw - windowMin) / (windowMax - windowMin || 1)) * 255, 0, 255)`
in all three channels with opaque alpha, for all window settings including
degenerate and inverted ones; and provided the window is nondegenerate
(`windowMin < windowMax`), a raw value equal to `windowMin` maps to `0`,
one equal to `windowMax` maps to `255`, and values below/above the window
clamp to `0`/`255`. -/
theorem grayscale_windowing (d : Dims) (c : Coords) (axis : Axis)
    (volData lesionData : List ℚ) (showMask : Bool) (cll wMin wMax : ℚ)
    (sourceI jFlip : ℤ)
    (hmask : ¬ (showMask ∧
      lookupQ lesionData (getVal d c axis sourceI jFlip) > (1 / 2 : ℚ) ∧
      isEdge d c axis lesionData sourceI jFlip)) :
    renderPixel d c axis volData lesionData showMask cll wMin wMax sourceI jFlip =
      (windowedValue (lookupQ volData (getVal d c axis sourceI jFlip)) wMin wMax,
       windowedValue (lookupQ volData (getVal d c axis sourceI jFlip)) wMin wMax,
       windowedValue (lookupQ volData (getVal d c axis sourceI jFlip)) wMin wMax,
       255) ∧
    (∀ raw : ℚ, windowedValue raw wMin wMax =
      max 0 (min 255 ((raw - wMin) /
        (if wMax - wMin = 0 then 1 else wMax - wMin) * 255))) ∧
    (wMin < wMax →
      windowedValue wMin wMin wMax = 0 ∧
      windowedValue wMax wMin wMax = 255 ∧
      (∀ raw : ℚ, raw ≤ wMin → windowedValue raw wMin wMax = 0) ∧
      (∀ raw : ℚ, wMax ≤ raw → windowedValue raw wMin wMax = 255)) := by
  have hval : ∀ raw : ℚ, windowedValue raw wMin wMax =
      max 0 (min 255 ((raw - wMin) /
        (if wMax - wMin = 0 then 1 else wMax - wMin) * 255)) := by
    intro raw
    rw [windowedValue]
    exact clamp_ite_eq _
  refine ⟨?_, hval, ?_⟩
  · rw [renderPixel]
    simp only [hmask, if_false]
  intro hwin
  have hr : wMax - wMin ≠ 0 := sub_ne_zero.mpr hwin.ne'
  have hrpos : 0 < wMax - wMin := by linarith
  have hval2 : ∀ raw : ℚ, windowedValue raw wMin wMax =
      max 0 (min 255 ((raw - wMin) / (wMax - wMin) * 255)) := by
    intro raw
    rw [hval raw, if_neg hr]
  refine ⟨?_, ?_, ?_, ?_⟩
  · rw [hval2]
    norm_num
  · rw [hval2, div_self hr]
    norm_num
  · intro raw hle
    rw [hval2]
    have : (raw - wMin) / (wMax - wMin) * 255 ≤ 0 := by
      apply mul_nonpos_of_nonpos_of_nonneg
      · exact div_nonpos_of_nonpos_of_nonneg (by linarith) (by linarith)
      · norm_num
    rw [min_eq_right (by linarith), max_eq_left this]
  · intro raw hge
    rw [hval2]
    have h1 : (1 : ℚ) ≤ (raw - wMin) / (wMax - wMin) := by
      rw [le_div_iff₀ hrpos]
      linarith
    have : (255 : ℚ) ≤ (raw - wMin) / (wMax - wMin) * 255 := by nlinarith
    rw [min_eq_left this, max_eq_right (by norm_num)]

/-- Witness for `grayscale_windowing` at concrete inputs: with the
nondegenerate window `wMin = 1 < 3 = wMax` (no mask overlay) the voxel
value `3 = windowMax` renders as `255`, and with the degenerate window
`wMin = wMax = 0` the unconditional clamp formula with substituted range
`1` still holds. -/
theorem grayscale_windowing_witness :
    ((1 : ℚ) < 3) ∧ windowedValue 3 1 3 = 255 ∧
    windowedValue 7 0 0 =
      max 0 (min 255 (((7 : ℚ) - 0) /
        (if (0 : ℚ) - 0 = 0 then 1 else 0 - 0) * 255)) :=
  ⟨by norm_num,
    ((grayscale_windowing ⟨1, 1, 1⟩ ⟨0, 0, 0⟩ .z [2] [] false 0 1 3 0 0
      (by simp)).2.2 (by norm_num)).2.1,
    (grayscale_windowing ⟨1, 1, 1⟩ ⟨0, 0, 0⟩ .z [2] [] false 0 0 0 0 0
      (by simp)).2.1 7⟩

/-! ## Percentile engine (C7) -/

/-- **C7** (code bug): the spec and every App.js call site pass a percentile
pair, e.g. `calculateContrastPercentiles(normFlairStar, 2.0, 99.5)`, but the
definition in scope declares only `(data)` and hard-codes the percentiles
`1` and `99.99`, so JavaScript drops the passed pair.  On `percData` (stride
subsample `[0, 5]`) a caller passing `(50, 100)` gets `(0, 5)` although the
claimed indexing `floor(p/100 * sampleCount)` (clamped) yields `(5, 5)`. -/
theorem contrastPercentiles_ignore_caller_pair :
    calculateContrastPercentilesCalled percData 50 100 = (0, 5) ∧
    contrastPercentilesClaimed percData 50 100 = (5, 5) ∧
    calculateContrastPercentilesCalled percData 50 100 ≠
      contrastPercentilesClaimed percData 50 100 := by
  have h1 : calculateContrastPercentilesCalled percData 50 100 = (0, 5) := by
    with_unfolding_all rfl
  have h2 : contrastPercentilesClaimed percData 50 100 = (5, 5) := by
    with_unfolding_all rfl
  refine ⟨h1, h2, ?_⟩
  rw [h1, h2]
  intro h
  exact absurd (congrArg Prod.fst h) (by norm_num)

/-! ## Zoomed render window (C5) -/

/-- **C5** (counterexample): on a `4×4×4` volume with voxel sizes
`(2, 1, 1)` the axial aspect ratio is `1/2`, so `fovZoom = 1` requests the
window `(renderWidth, renderHeight) = (4, 8)` — taller than the slice.  The
clamp leaves `startJ = 0`, the window `[0, 8)` is not inside
`[0, fullHeight) = [0, 4)`, and the pixel row `j = 7` reads flipped source
row `jFlip = -4`, an out-of-bounds lookup. -/
theorem renderWindow_overflow_counterexample :
    renderWindow ⟨4, 4, 4⟩ ⟨2, 1, 1⟩ .z ⟨0, 0, 0⟩ 1 = (4, 8, 0, 0) ∧
    ¬ ((renderWindow ⟨4, 4, 4⟩ ⟨2, 1, 1⟩ .z ⟨0, 0, 0⟩ 1).2.2.2 +
        (renderWindow ⟨4, 4, 4⟩ ⟨2, 1, 1⟩ .z ⟨0, 0, 0⟩ 1).2.1 ≤
        (fullHeight ⟨4, 4, 4⟩ .z : ℤ)) ∧
    (fullHeight ⟨4, 4, 4⟩ .z : ℤ) - 1 -
        ((renderWindow ⟨4, 4, 4⟩ ⟨2, 1, 1⟩ .z ⟨0, 0, 0⟩ 1).2.2.2 + 7) < 0 := by
  have hwin : renderWindow ⟨4, 4, 4⟩ ⟨2, 1, 1⟩ .z ⟨0, 0, 0⟩ 1 = (4, 8, 0, 0) := by
    with_unfolding_all rfl
  refine ⟨hwin, ?_, ?_⟩ <;> rw [hwin] <;> decide

theorem flatIndex_bound (a b e A B E : ℤ) (ha0 : 0 ≤ a) (haA : a < A)
    (hb0 : 0 ≤ b) (hbB : b < B) (he0 : 0 ≤ e) (heE : e < E) :
    0 ≤ a + b * A + e * (A * B) ∧ a + b * A + e * (A * B) < A * B * E := by
  have hA : 0 < A := lt_of_le_of_lt ha0 haA
  have hB : 0 < B := lt_of_le_of_lt hb0 hbB
  constructor
  · have h1 : 0 ≤ b * A := mul_nonneg hb0 hA.le
    have h2 : 0 ≤ e * (A * B) := mul_nonneg he0 (mul_nonneg hA.le hB.le)
    linarith
  · have h1 : b * A ≤ (B - 1) * A := by
      apply mul_le_mul_of_nonneg_right _ hA.le
      omega
    have h2 : e * (A * B) ≤ (E - 1) * (A * B) := by
      apply mul_le_mul_of_nonneg_right _ (mul_nonneg hA.le hB.le)
      omega
    nlinarith

/-- **C5** (amended): the clamped window is fully inside the slice — and
hence every per-pixel lookup `(startI + i, startJ + j)` reads an in-bounds
voxel whose flat index is inside the volume — **provided** the requested
window fits, i.e. `renderWidth ≤ fullWidth` and `renderHeight ≤ fullHeight`
(a requested window larger than the slice overflows past the clamp, as the
counterexample shows). -/
theorem renderWindow_inBounds (d : Dims) (p : PixDims) (axis : Axis) (c : Coords)
    (fovZoom : ℚ) (i j : ℤ)
    (hw : (renderWindow d p axis c fovZoom).1 ≤ (fullWidth d axis : ℤ))
    (hh : (renderWindow d p axis c fovZoom).2.1 ≤ (fullHeight d axis : ℤ))
    (hi0 : 0 ≤ i) (hiw : i < (renderWindow d p axis c fovZoom).1)
    (hj0 : 0 ≤ j) (hjh : j < (renderWindow d p axis c fovZoom).2.1)
    (hslice : (match axis with
       | .x => c.x < d.X
       | .y => c.y < d.Y
       | .z => c.z < d.Z)) :
    0 ≤ (renderWindow d p axis c fovZoom).2.2.1 ∧
    (renderWindow d p axis c fovZoom).2.2.1 + (renderWindow d p axis c fovZoom).1 ≤
      (fullWidth d axis : ℤ) ∧
    0 ≤ (renderWindow d p axis c fovZoom).2.2.2 ∧
    (renderWindow d p axis c fovZoom).2.2.2 + (renderWindow d p axis c fovZoom).2.1 ≤
      (fullHeight d axis : ℤ) ∧
    0 ≤ (renderWindow d p axis c fovZoom).2.2.1 + i ∧
    (renderWindow d p axis c fovZoom).2.2.1 + i < (fullWidth d axis : ℤ) ∧
    0 ≤ (fullHeight d axis : ℤ) - 1 - ((renderWindow d p axis c fovZoom).2.2.2 + j) ∧
    (fullHeight d axis : ℤ) - 1 - ((renderWindow d p axis c fovZoom).2.2.2 + j) <
      (fullHeight d axis : ℤ) ∧
    0 ≤ getVal d c axis ((renderWindow d p axis c fovZoom).2.2.1 + i)
        ((fullHeight d axis : ℤ) - 1 - ((renderWindow d p axis c fovZoom).2.2.2 + j)) ∧
    getVal d c axis ((renderWindow d p axis c fovZoom).2.2.1 + i)
        ((fullHeight d axis : ℤ) - 1 - ((renderWindow d p axis c fovZoom).2.2.2 + j)) <
      (d.X : ℤ) * d.Y * d.Z := by
  have hI0 : 0 ≤ (renderWindow d p axis c fovZoom).2.2.1 := le_max_left _ _
  have hJ0 : 0 ≤ (renderWindow d p axis c fovZoom).2.2.2 := le_max_left _ _
  have hIW : (renderWindow d p axis c fovZoom).2.2.1 ≤
      (fullWidth d axis : ℤ) - (renderWindow d p axis c fovZoom).1 :=
    max_le (by linarith) (min_le_left _ _)
  have hJH : (renderWindow d p axis c fovZoom).2.2.2 ≤
      (fullHeight d axis : ℤ) - (renderWindow d p axis c fovZoom).2.1 :=
    max_le (by linarith) (min_le_left _ _)
  have hsi0 : 0 ≤ (renderWindow d p axis c fovZoom).2.2.1 + i := by linarith
  have hsiW : (renderWindow d p axis c fovZoom).2.2.1 + i < (fullWidth d axis : ℤ) := by
    linarith
  have hjf0 : 0 ≤ (fullHeight d axis : ℤ) - 1 -
      ((renderWindow d p axis c fovZoom).2.2.2 + j) := by linarith
  have hjfH : (fullHeight d axis : ℤ) - 1 -
      ((renderWindow d p axis c fovZoom).2.2.2 + j) < (fullHeight d axis : ℤ) := by
    linarith
  refine ⟨hI0, by linarith, hJ0, by linarith, hsi0, hsiW, hjf0, hjfH, ?_⟩
  cases axis with
  | x =>
    simp only [getVal, fullWidth, fullHeight] at *
    have hb := flatIndex_bound (c.x : ℤ) ((renderWindow d p .x c fovZoom).2.2.1 + i)
      ((d.Z : ℤ) - 1 - ((renderWindow d p .x c fovZoom).2.2.2 + j))
      d.X d.Y d.Z (by positivity) (by exact_mod_cast hslice) hsi0 hsiW hjf0 hjfH
    constructor
    · have := hb.1; linarith
    · have := hb.2; linarith
  | y =>
    simp only [getVal, fullWidth, fullHeight] at *
    have hb := flatIndex_bound ((renderWindow d p .y c fovZoom).2.2.1 + i) (c.y : ℤ)
      ((d.Z : ℤ) - 1 - ((renderWindow d p .y c fovZoom).2.2.2 + j))
      d.X d.Y d.Z hsi0 hsiW (by positivity) (by exact_mod_cast hslice) hjf0 hjfH
    constructor
    · have := hb.1; linarith
    · have := hb.2; linarith
  | z =>
    simp only [getVal, fullWidth, fullHeight] at *
    have hb := flatIndex_bound ((renderWindow d p .z c fovZoom).2.2.1 + i)
      ((d.Y : ℤ) - 1 - ((renderWindow d p .z c fovZoom).2.2.2 + j)) (c.z : ℤ)
      d.X d.Y d.Z hsi0 hsiW hjf0 hjfH (by positivity) (by exact_mod_cast hslice)
    constructor
    · have := hb.1; linarith
    · have := hb.2; linarith

/-- Witness for `renderWindow_inBounds`: `4×4×4`, isotropic voxels,
`fovZoom = 2` gives the window `(2, 2, 0, 2)`, which fits; the lookup for
pixel `(i, j) = (1, 0)` is in bounds. -/
theorem renderWindow_inBounds_witness :
    ((renderWindow ⟨4, 4, 4⟩ ⟨1, 1, 1⟩ .z ⟨0, 0, 0⟩ 2).1 ≤
        (fullWidth ⟨4, 4, 4⟩ .z : ℤ)) ∧
    ((renderWindow ⟨4, 4, 4⟩ ⟨1, 1, 1⟩ .z ⟨0, 0, 0⟩ 2).2.1 ≤
        (fullHeight ⟨4, 4, 4⟩ .z : ℤ)) ∧
    (0 ≤ (renderWindow ⟨4, 4, 4⟩ ⟨1, 1, 1⟩ .z ⟨0, 0, 0⟩ 2).2.2.1 + 1 ∧
      (renderWindow ⟨4, 4, 4⟩ ⟨1, 1, 1⟩ .z ⟨0, 0, 0⟩ 2).2.2.1 + 1 <
        (fullWidth ⟨4, 4, 4⟩ .z : ℤ)) ∧
    (0 ≤ getVal ⟨4, 4, 4⟩ ⟨0, 0, 0⟩ .z
        ((renderWindow ⟨4, 4, 4⟩ ⟨1, 1, 1⟩ .z ⟨0, 0, 0⟩ 2).2.2.1 + 1)
        ((fullHeight ⟨4, 4, 4⟩ .z : ℤ) - 1 -
          ((renderWindow ⟨4, 4, 4⟩ ⟨1, 1, 1⟩ .z ⟨0, 0, 0⟩ 2).2.2.2 + 0)) ∧
      getVal ⟨4, 4, 4⟩ ⟨0, 0, 0⟩ .z
        ((renderWindow ⟨4, 4, 4⟩ ⟨1, 1, 1⟩ .z ⟨0, 0, 0⟩ 2).2.2.1 + 1)
        ((fullHeight ⟨4, 4, 4⟩ .z : ℤ) - 1 -
          ((renderWindow ⟨4, 4, 4⟩ ⟨1, 1, 1⟩ .z ⟨0, 0, 0⟩ 2).2.2.2 + 0)) <
        ((4 : ℕ) : ℤ) * (4 : ℕ) * (4 : ℕ)) := by
  have hwin : renderWindow ⟨4, 4, 4⟩ ⟨1, 1, 1⟩ .z ⟨0, 0, 0⟩ 2 = (2, 2, 0, 2) := by
    with_unfolding_all rfl
  have hw : (renderWindow ⟨4, 4, 4⟩ ⟨1, 1, 1⟩ .z ⟨0, 0, 0⟩ 2).1 ≤
      (fullWidth ⟨4, 4, 4⟩ .z : ℤ) := by rw [hwin]; decide
  have hh : (renderWindow ⟨4, 4, 4⟩ ⟨1, 1, 1⟩ .z ⟨0, 0, 0⟩ 2).2.1 ≤
      (fullHeight ⟨4, 4, 4⟩ .z : ℤ) := by rw [hwin]; decide
  have hmain := renderWindow_inBounds ⟨4, 4, 4⟩ ⟨1, 1, 1⟩ .z ⟨0, 0, 0⟩ 2 1 0
    hw hh (by norm_num) (by rw [hwin]; decide) (by norm_num) (by rw [hwin]; decide)
    (by norm_num)
  exact ⟨hw, hh, ⟨hmain.2.2.2.2.1, hmain.2.2.2.2.2.1⟩,
    ⟨hmain.2.2.2.2.2.2.2.2.1, hmain.2.2.2.2.2.2.2.2.2⟩⟩

/-! ## Lesion-boundary overlay (C8) -/

/-- **C8** (counterexample): in `labelMask33` the center voxel `(1, 1)` of
the axial slice is foreground, not on the border, and its right neighbor
carries a *different* rounded label (`2` vs `1`), yet `isEdge` is `false`:
the boundary test checks only the neighbors' `> 0.5` foreground values and
never compares labels. -/
theorem isEdge_ignores_labels_counterexample :
    lookupQ labelMask33 (getVal ⟨3, 3, 1⟩ ⟨0, 0, 0⟩ .z 1 1) > (1 / 2 : ℚ) ∧
    jsRound (lookupQ labelMask33 (getVal ⟨3, 3, 1⟩ ⟨0, 0, 0⟩ .z 2 1)) = 2 ∧
    jsRound (lookupQ labelMask33 (getVal ⟨3, 3, 1⟩ ⟨0, 0, 0⟩ .z 1 1)) = 1 ∧
    (1 : ℤ) ≠ 0 ∧ (1 : ℤ) ≠ (fullWidth ⟨3, 3, 1⟩ .z : ℤ) - 1 ∧
    (1 : ℤ) ≠ (fullHeight ⟨3, 3, 1⟩ .z : ℤ) - 1 ∧
    isEdge ⟨3, 3, 1⟩ ⟨0, 0, 0⟩ .z labelMask33 1 1 = false := by
  have hcenter : lookupQ labelMask33 (getVal ⟨3, 3, 1⟩ ⟨0, 0, 0⟩ .z 1 1) = 1 := by
    with_unfolding_all rfl
  refine ⟨?_, by with_unfolding_all rfl, by with_unfolding_all rfl, by decide,
    ?_, ?_, by with_unfolding_all rfl⟩
  · rw [hcenter]; norm_num
  · show (1 : ℤ) ≠ ((3 : ℕ) : ℤ) - 1; decide
  · show (1 : ℤ) ≠ ((3 : ℕ) : ℤ) - 1; decide

/-- **C8** (amended): for a pixel not on the slice border, the labeled-mask
variant marks it as a boundary voxel iff at least one of its four in-plane
neighbors fails the `> 0.5` foreground test — the neighbors' label values
play no role in the boundary decision (they only select the overlay
color). -/
theorem isEdge_iff_nonfg_neighbor (d : Dims) (c : Coords) (axis : Axis)
    (ld : List ℚ) (sourceI jFlip : ℤ)
    (h1 : sourceI ≠ 0) (h2 : sourceI ≠ (fullWidth d axis : ℤ) - 1)
    (h3 : jFlip ≠ 0) (h4 : jFlip ≠ (fullHeight d axis : ℤ) - 1) :
    isEdge d c axis ld sourceI jFlip = true ↔
      (lookupQ ld (getVal d c axis (sourceI + 1) jFlip) ≤ 1 / 2 ∨
       lookupQ ld (getVal d c axis (sourceI - 1) jFlip) ≤ 1 / 2 ∨
       lookupQ ld (getVal d c axis sourceI (jFlip + 1)) ≤ 1 / 2 ∨
       lookupQ ld (getVal d c axis sourceI (jFlip - 1)) ≤ 1 / 2) := by
  rw [isEdge]
  simp only [h1, h2, h3, h4, or_self, if_false, false_or]
  simp [not_lt]

/-- Witness for `isEdge_iff_nonfg_neighbor` at the center of `labelMask33`:
no neighbor fails the foreground test, so the pixel is not a boundary. -/
theorem isEdge_iff_nonfg_neighbor_witness :
    (1 : ℤ) ≠ 0 ∧
    (isEdge ⟨3, 3, 1⟩ ⟨0, 0, 0⟩ .z labelMask33 1 1 = true ↔
      (lookupQ labelMask33 (getVal ⟨3, 3, 1⟩ ⟨0, 0, 0⟩ .z (1 + 1) 1) ≤ 1 / 2 ∨
       lookupQ labelMask33 (getVal ⟨3, 3, 1⟩ ⟨0, 0, 0⟩ .z (1 - 1) 1) ≤ 1 / 2 ∨
       lookupQ labelMask33 (getVal ⟨3, 3, 1⟩ ⟨0, 0, 0⟩ .z 1 (1 + 1)) ≤ 1 / 2 ∨
       lookupQ labelMask33 (getVal ⟨3, 3, 1⟩ ⟨0, 0, 0⟩ .z 1 (1 - 1)) ≤ 1 / 2)) :=
  ⟨by decide,
    isEdge_iff_nonfg_neighbor ⟨3, 3, 1⟩ ⟨0, 0, 0⟩ .z labelMask33 1 1
      (by decide) (by show (1 : ℤ) ≠ ((3 : ℕ) : ℤ) - 1; decide)
      (by decide) (by show (1 : ℤ) ≠ ((3 : ℕ) : ℤ) - 1; decide)⟩

/-! ## Purity of the labeler (C4) -/

/-- **C4** (counterexample): on the mask `[0.7, 0.7]` both voxels are
thresholded foreground with final label `1`, yet after the call the
caller's buffer still holds `0.7 ≠ 1` — `findConnectedComponents` never
overwrites the input; it returns the fresh `labels` buffer instead. -/
theorem findConnectedComponents_no_overwrite_counterexample :
    (findConnectedComponents [7 / 10, 7 / 10] (2, 1, 1)).dataAfter = [7 / 10, 7 / 10] ∧
    (findConnectedComponents [7 / 10, 7 / 10] (2, 1, 1)).labeledMask = #[1, 1] ∧
    (7 / 10 : ℚ) > 1 / 2 ∧ (7 / 10 : ℚ) ≠ 1 := by
  refine ⟨by with_unfolding_all rfl, by with_unfolding_all rfl, by norm_num, by norm_num⟩

theorem pass1_data_invariant (W H D : ℕ) (l : List (ℕ × ℕ × ℕ)) (s : Pass1State) :
    (l.foldl (pass1Step W H D) s).data = s.data := by
  induction l generalizing s with
  | nil => rfl
  | cons v t ih =>
    rw [List.foldl_cons, ih]
    rw [pass1Step]
    split
    · split <;> rfl
    · rfl

theorem pass2_data_invariant (W H : ℕ) (roots : List ℕ) (l : List ℕ) (s : Pass2State) :
    (l.foldl (pass2Step W H roots) s).data = s.data := by
  induction l generalizing s with
  | nil => rfl
  | cons v t ih =>
    rw [List.foldl_cons, ih]
    simp only [pass2Step]
    split
    · split <;> rfl
    · rfl

/-- **C4** (amended): `findConnectedComponents` performs no write to the
caller's mask buffer — the buffer contents after the call equal the input
for every mask and dimensions; the final labels live only in the freshly
allocated `labeledMask` the function returns (which App.js then installs as
`volumes.lesion`). -/
theorem findConnectedComponents_preserves_input (data : List ℚ) (dims : ℕ × ℕ × ℕ) :
    (findConnectedComponents data dims).dataAfter = data := by
  rw [findConnectedComponents]
  show (pass2 _ _ _ _).data = data
  rw [pass2, pass2_data_invariant]
  show (pass1 _ _ _ _).data = data
  rw [pass1, pass1_data_invariant]

/-! ## Dense-ids claim (C3): counterexample -/

/-- **C3** (counterexample): on `mask15` the only surviving lesion keeps its
pre-filter dense id `2`, so the emitted id set is `{2}`, not `{1}`: the
dense remap happens *before* the `>10` filter and survivors keep their
original dense ids. -/
theorem lesionIds_not_dense_counterexample :
    (findConnectedComponents mask15 (15, 1, 1)).lesions =
      [{ id := 2, x := 8, y := 0, z := 0, volume := 12 }] ∧
    ((findConnectedComponents mask15 (15, 1, 1)).lesions.map Lesion.id).toFinset ≠
      Finset.Icc 1 (findConnectedComponents mask15 (15, 1, 1)).lesions.length := by
  have h : (findConnectedComponents mask15 (15, 1, 1)).lesions =
      [{ id := 2, x := 8, y := 0, z := 0, volume := 12 }] := by
    with_unfolding_all rfl
  refine ⟨h, ?_⟩
  rw [h]
  decide

/-! ## Foreground labeling claim (C10): counterexample -/

/-- **C10** (counterexample): for the 1-voxel volume `[1]` the sole voxel is
thresholded foreground, but the fresh-label bookkeeping writes
`parent[1]` out of bounds of the size-1 `Int32Array`; the root lookup then
misses `labelMap` and pass 2 zeroes the voxel: `labeledMask[0] = 0` although
`data[0] = 1 > 0.5`. -/
theorem labeledMask_one_voxel_counterexample :
    isFg [1] 0 ∧ finalLabel [1] (1, 1, 1) 0 = 0 := by
  constructor
  · show (1 : ℚ) > 1 / 2
    norm_num
  · with_unfolding_all rfl


/-! ## Union-find lemmas -/

theorem setD_oob (a : Array ℕ) {j : ℕ} (v : ℕ) (h : ¬ j < a.size) :
    a.setD j v = a := by
  unfold Array.setD
  rw [dif_neg h]

theorem getD_setD_ne (a : Array ℕ) {i j : ℕ} (v : ℕ) (h : i ≠ j) :
    (a.setD j v).getD i 0 = a.getD i 0 := by
  by_cases hj : j < a.size
  · rw [Array.getD_eq_get?, Array.getD_eq_get?]
    unfold Array.setD
    rw [dif_pos hj, Array.getElem?_set_ne a ⟨j, hj⟩ v (fun hh => h hh.symm)]
  · rw [setD_oob a v hj]

theorem getD_setD_self (a : Array ℕ) {j : ℕ} (v : ℕ) (h : j < a.size) :
    (a.setD j v).getD j 0 = v := by
  rw [Array.getD_eq_get?]
  unfold Array.setD
  rw [dif_pos h]
  have := Array.getElem?_set_eq a ⟨j, h⟩ v
  simp only at this
  rw [this]
  rfl

theorem getD_mkArray (n i : ℕ) : (Array.mkArray n (0 : ℕ)).getD i 0 = 0 := by
  rw [Array.getD_eq_get?, Array.getElem?_mkArray]
  split <;> rfl

theorem rootAux_congr (p : Array ℕ) (hup : ∀ l, p.getD l 0 ≤ l) :
    ∀ i f1 f2, i < f1 → i < f2 → rootAux f1 p i = rootAux f2 p i := by
  intro i
  induction i using Nat.strong_induction_on with
  | _ i ih =>
    intro f1 f2 h1 h2
    obtain ⟨g1, rfl⟩ : ∃ g, f1 = g + 1 := ⟨f1 - 1, by omega⟩
    obtain ⟨g2, rfl⟩ : ∃ g, f2 = g + 1 := ⟨f2 - 1, by omega⟩
    rw [rootAux, rootAux]
    by_cases h : p.getD i 0 = i
    · rw [if_pos h, if_pos h]
    · rw [if_neg h, if_neg h]
      have hlt : p.getD i 0 < i := lt_of_le_of_ne (hup i) h
      exact ih (p.getD i 0) hlt g1 g2 (by omega) (by omega)

/-- The one-step unfolding of the pure root function. -/
theorem rootD_unfold (p : Array ℕ) (hup : ∀ l, p.getD l 0 ≤ l) (i : ℕ) :
    rootD p i = if p.getD i 0 = i then i else rootD p (p.getD i 0) := by
  rw [rootD, rootAux]
  by_cases h : p.getD i 0 = i
  · rw [if_pos h, if_pos h]
  · rw [if_neg h, if_neg h]
    have hlt : p.getD i 0 < i := lt_of_le_of_ne (hup i) h
    exact rootAux_congr p hup (p.getD i 0) i (p.getD i 0 + 1) (by omega) (by omega)

theorem rootD_of_root (p : Array ℕ) (hup : ∀ l, p.getD l 0 ≤ l) {i : ℕ}
    (h : p.getD i 0 = i) : rootD p i = i := by
  rw [rootD_unfold p hup, if_pos h]

theorem rootD_le (p : Array ℕ) (hup : ∀ l, p.getD l 0 ≤ l) (i : ℕ) :
    rootD p i ≤ i := by
  induction i using Nat.strong_induction_on with
  | _ i ih =>
    rw [rootD_unfold p hup]
    by_cases h : p.getD i 0 = i
    · rw [if_pos h]
    · rw [if_neg h]
      have hlt : p.getD i 0 < i := lt_of_le_of_ne (hup i) h
      exact le_trans (ih _ hlt) hlt.le

theorem rootD_parent (p : Array ℕ) (hup : ∀ l, p.getD l 0 ≤ l) (i : ℕ) :
    rootD p (p.getD i 0) = rootD p i := by
  by_cases h : p.getD i 0 = i
  · rw [h]
  · rw [rootD_unfold p hup i, if_neg h]

theorem rootD_fix (p : Array ℕ) (hup : ∀ l, p.getD l 0 ≤ l) (i : ℕ) :
    p.getD (rootD p i) 0 = rootD p i := by
  induction i using Nat.strong_induction_on with
  | _ i ih =>
    rw [rootD_unfold p hup]
    by_cases h : p.getD i 0 = i
    · rw [if_pos h]
      exact h
    · rw [if_neg h]
      exact ih _ (lt_of_le_of_ne (hup i) h)

theorem rootD_lower (p : Array ℕ) (n : ℕ) (inv : UFInv p n) :
    ∀ i, 1 ≤ i → i < n → 1 ≤ rootD p i := by
  intro i
  induction i using Nat.strong_induction_on with
  | _ i ih =>
    intro h1 hn
    rw [rootD_unfold p inv.upper]
    by_cases h : p.getD i 0 = i
    · rw [if_pos h]; exact h1
    · rw [if_neg h]
      have hlt : p.getD i 0 < i := lt_of_le_of_ne (inv.upper i) h
      exact ih _ hlt (inv.lower i h1 hn) (by omega)

/-- Writing at an index strictly above `i` does not change the root of `i`
(the chain from `i` never climbs). -/
theorem rootD_setD_of_gt (p : Array ℕ) (hup : ∀ l, p.getD l 0 ≤ l)
    {j v : ℕ} (hv : v ≤ j) :
    ∀ i, i < j → rootD (p.setD j v) i = rootD p i := by
  have hup2 : ∀ l, (p.setD j v).getD l 0 ≤ l := by
    intro l
    by_cases hl : l = j
    · subst hl
      by_cases hs : l < p.size
      · rw [getD_setD_self p v hs]; exact hv
      · rw [setD_oob p v hs]; exact hup l
    · rw [getD_setD_ne p v hl]; exact hup l
  intro i
  induction i using Nat.strong_induction_on with
  | _ i ih =>
    intro hij
    rw [rootD_unfold _ hup2, rootD_unfold p hup, getD_setD_ne p v (by omega)]
    by_cases h : p.getD i 0 = i
    · rw [if_pos h, if_pos h]
    · rw [if_neg h, if_neg h]
      have hlt : p.getD i 0 < i := lt_of_le_of_ne (hup i) h
      exact ih _ hlt (by omega)


theorem compress_upper (p : Array ℕ) (hup : ∀ l, p.getD l 0 ≤ l) (i : ℕ) :
    ∀ l, (p.setD i (p.getD (p.getD i 0) 0)).getD l 0 ≤ l := by
  intro l
  by_cases hl : l = i
  · subst hl
    by_cases hs : l < p.size
    · rw [getD_setD_self p _ hs]
      exact le_trans (hup _) (hup l)
    · rw [setD_oob p _ hs]
      exact hup l
  · rw [getD_setD_ne p _ hl]
    exact hup l

theorem compress_inv (p : Array ℕ) (n : ℕ) (inv : UFInv p n) (i : ℕ) :
    UFInv (p.setD i (p.getD (p.getD i 0) 0)) n := by
  refine ⟨?_, compress_upper p inv.upper i, ?_⟩
  · intro l h1 hn
    by_cases hl : l = i
    · subst hl
      by_cases hs : l < p.size
      · rw [getD_setD_self p _ hs]
        have hp1 : 1 ≤ p.getD l 0 := inv.lower l h1 hn
        have hpn : p.getD l 0 < n := lt_of_le_of_lt (inv.upper l) hn
        exact inv.lower _ hp1 hpn
      · rw [setD_oob p _ hs]
        exact inv.lower l h1 hn
    · rw [getD_setD_ne p _ hl]
      exact inv.lower l h1 hn
  · intro l hl
    by_cases hli : l = i
    · subst hli
      by_cases hs : l < p.size
      · rw [getD_setD_self p _ hs, inv.outside l hl]
        exact inv.outside 0 (Or.inl rfl)
      · rw [setD_oob p _ hs]
        exact inv.outside l hl
    · rw [getD_setD_ne p _ hli]
      exact inv.outside l hl

theorem compress_rootD (p : Array ℕ) (hup : ∀ l, p.getD l 0 ≤ l) (i : ℕ)
    (hne : p.getD i 0 ≠ i) :
    ∀ j, rootD (p.setD i (p.getD (p.getD i 0) 0)) j = rootD p j := by
  by_cases hs : i < p.size
  case neg =>
    rw [setD_oob p _ hs]
    intro j
    rfl
  case pos =>
    have hupq := compress_upper p hup i
    have hpi : p.getD i 0 < i := lt_of_le_of_ne (hup i) hne
    have hgpi : p.getD (p.getD i 0) 0 ≤ p.getD i 0 := hup _
    intro j
    induction j using Nat.strong_induction_on with
    | _ j ih =>
      by_cases hj : j = i
      · subst hj
        rw [rootD_unfold _ hupq, getD_setD_self p _ hs]
        have hgne : p.getD (p.getD j 0) 0 ≠ j := by omega
        rw [if_neg hgne, ih _ (by omega), rootD_parent p hup, rootD_parent p hup]
      · rw [rootD_unfold _ hupq, getD_setD_ne p _ hj, rootD_unfold p hup]
        by_cases hr : p.getD j 0 = j
        · rw [if_pos hr, if_pos hr]
        · rw [if_neg hr, if_neg hr]
          exact ih _ (lt_of_le_of_ne (hup j) hr)

theorem findAux_spec (n : ℕ) : ∀ i (p : Array ℕ), UFInv p n → ∀ f, i < f →
    (findAux f p i).1 = rootD p i ∧
    (∀ j, rootD (findAux f p i).2 j = rootD p j) ∧
    UFInv (findAux f p i).2 n ∧ (findAux f p i).2.size = p.size := by
  intro i
  induction i using Nat.strong_induction_on with
  | _ i ih =>
    intro p inv f hf
    obtain ⟨g, rfl⟩ : ∃ g, f = g + 1 := ⟨f - 1, by omega⟩
    rw [findAux]
    by_cases h : p.getD i 0 = i
    · rw [if_pos h]
      exact ⟨(rootD_of_root p inv.upper h).symm, fun j => rfl, inv, rfl⟩
    · rw [if_neg h]
      have hpi : p.getD i 0 < i := lt_of_le_of_ne (inv.upper i) h
      have hinvq : UFInv (p.setD i (p.getD (p.getD i 0) 0)) n := compress_inv p n inv i
      have hrootq := compress_rootD p inv.upper i h
      by_cases hs : i < p.size
      · have hi2 : (p.setD i (p.getD (p.getD i 0) 0)).getD i 0 =
            p.getD (p.getD i 0) 0 := getD_setD_self p _ hs
        have hgpi : p.getD (p.getD i 0) 0 < i := lt_of_le_of_lt (inv.upper _) hpi
        have hrec := ih _ (hi2 ▸ hgpi) _ hinvq g (by omega)
        refine ⟨?_, ?_, hrec.2.2.1, by rw [hrec.2.2.2, Array.size_setD]⟩
        · rw [hrec.1, hrootq, hi2, rootD_parent p inv.upper, rootD_parent p inv.upper]
        · intro j
          rw [hrec.2.1 j, hrootq]
      · have hqe : p.setD i (p.getD (p.getD i 0) 0) = p := setD_oob p _ hs
        rw [hqe]
        have hrec := ih _ hpi p inv g (by omega)
        refine ⟨?_, hrec.2.1, hrec.2.2.1, hrec.2.2.2⟩
        rw [hrec.1, rootD_parent p inv.upper]

theorem find_spec (p : Array ℕ) (n : ℕ) (inv : UFInv p n) (i : ℕ) :
    (find p i).1 = rootD p i ∧
    (∀ j, rootD (find p i).2 j = rootD p j) ∧
    UFInv (find p i).2 n ∧ (find p i).2.size = p.size :=
  findAux_spec n i p inv (i + 1) (Nat.lt_succ_self i)


theorem link_spec (q : Array ℕ) (n : ℕ) (invq : UFInv q n) {r1 r2 : ℕ}
    (h1 : q.getD r1 0 = r1) (h2 : q.getD r2 0 = r2) (h12 : r1 < r2) (h1pos : 1 ≤ r1)
    (hr2n : r2 < n) (hsz : r2 < q.size) :
    UFInv (q.setD r2 r1) n ∧
    (∀ j, rootD (q.setD r2 r1) j = if rootD q j = r2 then r1 else rootD q j) := by
  have hup2 : ∀ l, (q.setD r2 r1).getD l 0 ≤ l := by
    intro l
    by_cases hl : l = r2
    · subst hl
      rw [getD_setD_self q _ hsz]
      omega
    · rw [getD_setD_ne q _ hl]
      exact invq.upper l
  have hinv2 : UFInv (q.setD r2 r1) n := by
    refine ⟨?_, hup2, ?_⟩
    · intro l hl1 hln
      by_cases hl : l = r2
      · subst hl
        rw [getD_setD_self q _ hsz]
        exact h1pos
      · rw [getD_setD_ne q _ hl]
        exact invq.lower l hl1 hln
    · intro l hl
      have hlne : l ≠ r2 := by
        rcases hl with hl | hl <;> omega
      rw [getD_setD_ne q _ hlne]
      exact invq.outside l hl
  refine ⟨hinv2, ?_⟩
  intro j
  induction j using Nat.strong_induction_on with
  | _ j ih =>
    by_cases hj : j = r2
    · subst hj
      rw [rootD_unfold _ hup2, getD_setD_self q _ hsz]
      have hne : r1 ≠ j := by omega
      rw [if_neg hne, ih r1 h12, rootD_of_root q invq.upper h1,
        rootD_of_root q invq.upper h2]
      simp [if_neg (by omega : ¬ r1 = j)]
    · rw [rootD_unfold _ hup2, getD_setD_ne q _ hj, rootD_unfold q invq.upper]
      by_cases hr : q.getD j 0 = j
      · rw [if_pos hr, if_pos hr, if_neg hj]
      · rw [if_neg hr, if_neg hr]
        have hlt : q.getD j 0 < j := lt_of_le_of_ne (invq.upper j) hr
        rw [ih _ hlt, rootD_parent q invq.upper]

theorem union_spec (p : Array ℕ) (n : ℕ) (inv : UFInv p n) (hn : n ≤ p.size)
    (a b : ℕ) (ha1 : 1 ≤ a) (han : a < n) (hb1 : 1 ≤ b) (hbn : b < n) :
    UFInv (union p a b) n ∧ (union p a b).size = p.size ∧
    (∀ j, rootD (union p a b) j =
      if rootD p j = rootD p a ∨ rootD p j = rootD p b
      then min (rootD p a) (rootD p b) else rootD p j) := by
  obtain ⟨hfa1, hfa2, hfa3, hfa4⟩ := find_spec p n inv a
  obtain ⟨hfb1, hfb2, hfb3, hfb4⟩ := find_spec (find p a).2 n hfa3 b
  have hra : (find p a).1 = rootD p a := hfa1
  have hrb : (find (find p a).2 b).1 = rootD p b := by rw [hfb1, hfa2]
  have hq2root : ∀ j, rootD (find (find p a).2 b).2 j = rootD p j := by
    intro j
    rw [hfb2, hfa2]
  have hq2size : (find (find p a).2 b).2.size = p.size := by rw [hfb4, hfa4]
  have hran : rootD p a < n := lt_of_le_of_lt (rootD_le p inv.upper a) han
  have hrbn : rootD p b < n := lt_of_le_of_lt (rootD_le p inv.upper b) hbn
  have hra1 : 1 ≤ rootD p a := rootD_lower p n inv a ha1 han
  have hrb1 : 1 ≤ rootD p b := rootD_lower p n inv b hb1 hbn
  have hrootfix : ∀ r, rootD p r = r → (find (find p a).2 b).2.getD r 0 = r := by
    intro r hr
    have := rootD_fix (find (find p a).2 b).2 hfb3.upper r
    rw [hq2root r, hr] at this
    exact this
  have hfixa : (find (find p a).2 b).2.getD (rootD p a) 0 = rootD p a :=
    hrootfix _ (rootD_of_root p inv.upper (rootD_fix p inv.upper a))
  have hfixb : (find (find p a).2 b).2.getD (rootD p b) 0 = rootD p b :=
    hrootfix _ (rootD_of_root p inv.upper (rootD_fix p inv.upper b))
  rw [union]
  by_cases hne : (find p a).1 ≠ (find (find p a).2 b).1
  · rw [if_pos hne]
    rw [hra, hrb] at hne
    by_cases hlt : (find p a).1 < (find (find p a).2 b).1
    · rw [if_pos hlt]
      rw [hra, hrb] at hlt
      obtain ⟨hL1, hL2⟩ := link_spec (find (find p a).2 b).2 n hfb3 hfixa hfixb hlt hra1
        hrbn (by omega)
      rw [hra, hrb]
      refine ⟨hL1, by rw [Array.size_setD, hq2size], ?_⟩
      intro j
      rw [hL2 j, hq2root j]
      by_cases hc : rootD p j = rootD p b
      · rw [if_pos hc, if_pos (Or.inr hc), min_eq_left hlt.le]
      · rw [if_neg hc]
        by_cases hc2 : rootD p j = rootD p a
        · rw [if_pos (Or.inl hc2), min_eq_left hlt.le, hc2]
        · rw [if_neg (not_or.mpr ⟨hc2, hc⟩)]
    · rw [if_neg hlt]
      rw [hra, hrb] at hlt
      have hlt2 : rootD p b < rootD p a := by omega
      obtain ⟨hL1, hL2⟩ := link_spec (find (find p a).2 b).2 n hfb3 hfixb hfixa hlt2 hrb1
        hran (by omega)
      rw [hra, hrb]
      refine ⟨hL1, by rw [Array.size_setD, hq2size], ?_⟩
      intro j
      rw [hL2 j, hq2root j]
      by_cases hc : rootD p j = rootD p a
      · rw [if_pos hc, if_pos (Or.inl hc), min_eq_right hlt2.le]
      · rw [if_neg hc]
        by_cases hc2 : rootD p j = rootD p b
        · rw [if_pos (Or.inr hc2), min_eq_right hlt2.le, hc2]
        · rw [if_neg (not_or.mpr ⟨hc, hc2⟩)]
  · rw [if_neg hne]
    rw [hra, hrb] at hne
    have heq : rootD p a = rootD p b := not_ne_iff.mp hne
    refine ⟨hfb3, hq2size, ?_⟩
    intro j
    rw [hq2root j]
    by_cases hc : rootD p j = rootD p a ∨ rootD p j = rootD p b
    · rw [if_pos hc, ← heq, min_self]
      rcases hc with hc | hc
      · exact hc
      · rw [heq]
        exact hc
    · rw [if_neg hc]


theorem ite_merge_iff (R R' rl rm : ℕ) :
    (if R = rl ∨ R = rm then min rl rm else R) =
      (if R' = rl ∨ R' = rm then min rl rm else R') ↔
    (R = R' ∨ ((R = rl ∨ R = rm) ∧ (R' = rl ∨ R' = rm))) := by
  by_cases h1 : R = rl ∨ R = rm <;> by_cases h2 : R' = rl ∨ R' = rm
  · rw [if_pos h1, if_pos h2]
    simp [h1, h2]
  · rw [if_pos h1, if_neg h2]
    constructor
    · intro h
      exfalso
      rcases min_choice rl rm with hmin | hmin <;> rw [hmin] at h <;>
        exact h2 (by omega)
    · rintro (h | ⟨ha, hb⟩)
      · exact absurd (by omega : R' = rl ∨ R' = rm) h2
      · exact absurd hb h2
  · rw [if_neg h1, if_pos h2]
    constructor
    · intro h
      exfalso
      rcases min_choice rl rm with hmin | hmin <;> rw [hmin] at h <;>
        exact h1 (by omega)
    · rintro (h | ⟨ha, hb⟩)
      · exact absurd (by omega : R = rl ∨ R = rm) h1
      · exact absurd ha h1
  · rw [if_neg h1, if_neg h2]
    constructor
    · exact Or.inl
    · rintro (h | ⟨ha, hb⟩)
      · exact h
      · exact absurd ha h1

theorem union_step_equiv (p : Array ℕ) (n : ℕ) (inv : UFInv p n) (hn : n ≤ p.size)
    (l m : ℕ) (hl1 : 1 ≤ l) (hln : l < n) (hm1 : 1 ≤ m) (hmn : m < n) :
    ∀ j j', rootD (union p l m) j = rootD (union p l m) j' ↔
      (rootD p j = rootD p j' ∨
        ((rootD p j = rootD p l ∨ rootD p j = rootD p m) ∧
         (rootD p j' = rootD p l ∨ rootD p j' = rootD p m))) := by
  obtain ⟨_, _, hchar⟩ := union_spec p n inv hn l m hl1 hln hm1 hmn
  intro j j'
  rw [hchar j, hchar j']
  exact ite_merge_iff _ _ _ _

theorem foldUnion_spec (n m : ℕ) (hm1 : 1 ≤ m) (hmn : m < n) :
    ∀ (L : List ℕ), (∀ l ∈ L, 1 ≤ l ∧ l < n) → ∀ (p : Array ℕ), UFInv p n → n ≤ p.size →
    UFInv (L.foldl (fun q l => union q l m) p) n ∧
    (L.foldl (fun q l => union q l m) p).size = p.size ∧
    (∀ j j', rootD (L.foldl (fun q l => union q l m) p) j =
             rootD (L.foldl (fun q l => union q l m) p) j' ↔
      (rootD p j = rootD p j' ∨
        ((rootD p j = rootD p m ∨ ∃ l ∈ L, rootD p j = rootD p l) ∧
         (rootD p j' = rootD p m ∨ ∃ l ∈ L, rootD p j' = rootD p l)))) := by
  intro L
  induction L with
  | nil =>
    intro hL p inv hn
    refine ⟨inv, rfl, ?_⟩
    intro j j'
    simp only [List.foldl_nil, List.not_mem_nil, false_and, exists_false, or_false]
    constructor
    · exact Or.inl
    · rintro (h | ⟨h1, h2⟩)
      · exact h
      · rw [h1, h2]
  | cons l L' ihL =>
    intro hL p inv hn
    have hl := hL l (List.mem_cons_self l L')
    have hL' : ∀ x ∈ L', 1 ≤ x ∧ x < n := fun x hx => hL x (List.mem_cons_of_mem l hx)
    obtain ⟨inv', hsz', hchar'⟩ := union_spec p n inv hn l m hl.1 hl.2 hm1 hmn
    have hn' : n ≤ (union p l m).size := by rw [hsz']; exact hn
    obtain ⟨invq, hszq, hcharq⟩ := ihL hL' (union p l m) inv' hn'
    rw [List.foldl_cons]
    refine ⟨invq, by rw [hszq, hsz'], ?_⟩
    have E : ∀ x y, rootD (union p l m) x = rootD (union p l m) y ↔
        (rootD p x = rootD p y ∨
          ((rootD p x = rootD p l ∨ rootD p x = rootD p m) ∧
           (rootD p y = rootD p l ∨ rootD p y = rootD p m))) := by
      intro x y
      rw [hchar' x, hchar' y]
      exact ite_merge_iff _ _ _ _
    have hA : ∀ x, ((rootD (union p l m) x = rootD (union p l m) m ∨
          ∃ l' ∈ L', rootD (union p l m) x = rootD (union p l m) l') ↔
        (rootD p x = rootD p m ∨ ∃ z ∈ l :: L', rootD p x = rootD p z)) := by
      intro x
      constructor
      · rintro (hx | ⟨l', hl', hx⟩)
        · rcases (E x m).mp hx with h | ⟨h1, h2⟩
          · exact Or.inl h
          · rcases h1 with h1 | h1
            · exact Or.inr ⟨l, List.mem_cons_self l L', h1⟩
            · exact Or.inl h1
        · rcases (E x l').mp hx with h | ⟨h1, h2⟩
          · exact Or.inr ⟨l', List.mem_cons_of_mem l hl', h⟩
          · rcases h1 with h1 | h1
            · exact Or.inr ⟨l, List.mem_cons_self l L', h1⟩
            · exact Or.inl h1
      · rintro (hx | ⟨z, hz, hx⟩)
        · exact Or.inl ((E x m).mpr (Or.inl hx))
        · rcases List.mem_cons.mp hz with rfl | hmem
          · exact Or.inl ((E x m).mpr (Or.inr ⟨Or.inl hx, Or.inr rfl⟩))
          · exact Or.inr ⟨z, hmem, (E x z).mpr (Or.inl hx)⟩
    intro j j'
    rw [hcharq j j']
    constructor
    · rintro (h | ⟨h1, h2⟩)
      · rcases (E j j').mp h with h | ⟨h1, h2⟩
        · exact Or.inl h
        · refine Or.inr ⟨?_, ?_⟩
          · rcases h1 with h1 | h1
            · exact Or.inr ⟨l, List.mem_cons_self l L', h1⟩
            · exact Or.inl h1
          · rcases h2 with h2 | h2
            · exact Or.inr ⟨l, List.mem_cons_self l L', h2⟩
            · exact Or.inl h2
      · exact Or.inr ⟨(hA j).mp h1, (hA j').mp h2⟩
    · rintro (h | ⟨h1, h2⟩)
      · exact Or.inl ((E j j').mpr (Or.inl h))
      · exact Or.inr ⟨(hA j).mpr h1, (hA j').mpr h2⟩

/-- The merged-with-`m` form of `foldUnion_spec`. -/
theorem foldUnion_merged (n m : ℕ) (hm1 : 1 ≤ m) (hmn : m < n)
    (L : List ℕ) (hL : ∀ l ∈ L, 1 ≤ l ∧ l < n) (p : Array ℕ) (inv : UFInv p n)
    (hn : n ≤ p.size) :
    ∀ j, rootD (L.foldl (fun q l => union q l m) p) j =
         rootD (L.foldl (fun q l => union q l m) p) m ↔
      (rootD p j = rootD p m ∨ ∃ l ∈ L, rootD p j = rootD p l) := by
  obtain ⟨_, _, hchar⟩ := foldUnion_spec n m hm1 hmn L hL p inv hn
  intro j
  rw [hchar j m]
  constructor
  · rintro (h | ⟨h1, h2⟩)
    · exact Or.inl h
    · exact h1
  · intro h
    exact Or.inr ⟨h, Or.inl rfl⟩


/-! ## Raster-order geometry -/

theorem xyBound {W H x y : ℕ} (hx : x < W) (hy : y < H) : x + y * W < W * H := by
  have h1 : y * W ≤ (H - 1) * W := Nat.mul_le_mul_right W (by omega)
  have h2 : (H - 1) * W = H * W - W := by rw [Nat.sub_one_mul]
  have h3 : W ≤ H * W := Nat.le_mul_of_pos_left W (by omega)
  have h4 : H * W = W * H := Nat.mul_comm H W
  omega

theorem decodeX_getIndex {W H : ℕ} (x y z : ℕ) (hx : x < W) (hy : y < H) :
    decodeX W H (getIndex W H x y z) = x := by
  have e : getIndex W H x y z = (x + y * W) + z * (W * H) := by rw [getIndex]; ring
  rw [decodeX, e, Nat.add_mul_mod_self_right, Nat.mod_eq_of_lt (xyBound hx hy),
    Nat.add_mul_mod_self_right, Nat.mod_eq_of_lt hx]

theorem decodeY_getIndex {W H : ℕ} (x y z : ℕ) (hx : x < W) (hy : y < H) :
    decodeY W H (getIndex W H x y z) = y := by
  have e : getIndex W H x y z = (x + y * W) + z * (W * H) := by rw [getIndex]; ring
  rw [decodeY, e, Nat.add_mul_mod_self_right, Nat.mod_eq_of_lt (xyBound hx hy),
    Nat.add_mul_div_right _ _ (by omega : 0 < W), Nat.div_eq_of_lt hx]
  omega

theorem decodeZ_getIndex {W H : ℕ} (x y z : ℕ) (hx : x < W) (hy : y < H) :
    decodeZ W H (getIndex W H x y z) = z := by
  have hA : 0 < W * H := Nat.mul_pos (by omega) (by omega)
  have e : getIndex W H x y z = (x + y * W) + z * (W * H) := by rw [getIndex]; ring
  rw [decodeZ, e, Nat.add_mul_div_right _ _ hA, Nat.div_eq_of_lt (xyBound hx hy)]
  omega

theorem getIndex_lt {W H D x y z : ℕ} (hx : x < W) (hy : y < H) (hz : z < D) :
    getIndex W H x y z < W * H * D := by
  have e : getIndex W H x y z = (x + y * W) + z * (W * H) := by rw [getIndex]; ring
  have h1 : x + y * W < W * H := xyBound hx hy
  have h2 : z * (W * H) ≤ (D - 1) * (W * H) := Nat.mul_le_mul_right _ (by omega)
  have h3 : (D - 1) * (W * H) = D * (W * H) - W * H := Nat.sub_one_mul _ _
  have h4 : D * (W * H) = W * H * D := by ring
  have h5 : W * H ≤ W * H * D := Nat.le_mul_of_pos_right _ (by omega)
  omega

theorem decode_lt {W H D i : ℕ} (hi : i < W * H * D) :
    decodeX W H i < W ∧ decodeY W H i < H ∧ decodeZ W H i < D := by
  have hW : 0 < W := by
    rcases Nat.eq_zero_or_pos W with h | h
    · subst h; simp at hi
    · exact h
  have hH : 0 < H := by
    rcases Nat.eq_zero_or_pos H with h | h
    · subst h; simp at hi
    · exact h
  have hD : 0 < D := by
    rcases Nat.eq_zero_or_pos D with h | h
    · subst h; simp at hi
    · exact h
  have hA : 0 < W * H := by positivity
  refine ⟨Nat.mod_lt _ hW, ?_, ?_⟩
  · rw [decodeY, Nat.div_lt_iff_lt_mul hW]
    calc i % (W * H) < W * H := Nat.mod_lt _ hA
    _ = H * W := Nat.mul_comm _ _
  · rw [decodeZ, Nat.div_lt_iff_lt_mul hA]
    calc i < W * H * D := hi
    _ = D * (W * H) := by ring

theorem getIndex_decode {W H D i : ℕ} (hi : i < W * H * D) :
    getIndex W H (decodeX W H i) (decodeY W H i) (decodeZ W H i) = i := by
  rw [getIndex, decodeX, decodeY, decodeZ]
  have e : i / (W * H) * W * H = i / (W * H) * (W * H) := by ring
  rw [e]
  have h1 : i % (W * H) % W + i % (W * H) / W * W = i % (W * H) := by
    rw [Nat.mul_comm (i % (W * H) / W) W]
    exact Nat.mod_add_div _ _
  have h2 : i % (W * H) + i / (W * H) * (W * H) = i := by
    rw [Nat.mul_comm (i / (W * H)) (W * H)]
    exact Nat.mod_add_div _ _
  omega

theorem getIndex_lt_of_lex {W H : ℕ} {x y z x' y' z' : ℕ}
    (hx : x < W) (hy : y < H) (hx' : x' < W) (hy' : y' < H)
    (h : z' < z ∨ (z' = z ∧ y' < y) ∨ (z' = z ∧ y' = y ∧ x' < x)) :
    getIndex W H x' y' z' < getIndex W H x y z := by
  have e1 : getIndex W H x' y' z' = (x' + y' * W) + z' * (W * H) := by
    rw [getIndex]; ring
  have e2 : getIndex W H x y z = (x + y * W) + z * (W * H) := by
    rw [getIndex]; ring
  rw [e1, e2]
  rcases h with hz | ⟨hz, hy2⟩ | ⟨hz, hy2, hx2⟩
  · have h1 : x' + y' * W < W * H := xyBound hx' hy'
    have h2 : (z' + 1) * (W * H) ≤ z * (W * H) := Nat.mul_le_mul_right _ (by omega)
    have h3 : (z' + 1) * (W * H) = z' * (W * H) + W * H := Nat.succ_mul _ _
    omega
  · subst hz
    have h2 : (y' + 1) * W ≤ y * W := Nat.mul_le_mul_right _ (by omega)
    have h3 : (y' + 1) * W = y' * W + W := Nat.succ_mul _ _
    omega
  · subst hz; subst hy2
    omega

theorem getIndex_lt_iff_lex {W H : ℕ} {x y z x' y' z' : ℕ}
    (hx : x < W) (hy : y < H) (hx' : x' < W) (hy' : y' < H) :
    getIndex W H x' y' z' < getIndex W H x y z ↔
    (z' < z ∨ (z' = z ∧ y' < y) ∨ (z' = z ∧ y' = y ∧ x' < x)) := by
  constructor
  · intro h
    rcases Nat.lt_trichotomy z' z with hz | hz | hz
    · exact Or.inl hz
    · rcases Nat.lt_trichotomy y' y with hy2 | hy2 | hy2
      · exact Or.inr (Or.inl ⟨hz, hy2⟩)
      · rcases Nat.lt_trichotomy x' x with hx2 | hx2 | hx2
        · exact Or.inr (Or.inr ⟨hz, hy2, hx2⟩)
        · subst hz; subst hy2; subst hx2
          exact absurd h (lt_irrefl _)
        · subst hz; subst hy2
          exact absurd h (Nat.lt_asymm
            (getIndex_lt_of_lex hx' hy' hx hy (Or.inr (Or.inr ⟨rfl, rfl, hx2⟩))))
      · subst hz
        exact absurd h (Nat.lt_asymm
          (getIndex_lt_of_lex hx' hy' hx hy (Or.inr (Or.inl ⟨rfl, hy2⟩))))
    · exact absurd h (Nat.lt_asymm (getIndex_lt_of_lex hx' hy' hx hy (Or.inl hz)))
  · exact getIndex_lt_of_lex hx hy hx' hy'


/-- Every offset of the source's 13-neighbor list is a unit-cube offset that
precedes the current voxel in (z, y, x)-lexicographic scan order. -/
theorem neighborOffsets_facts : ∀ d ∈ neighborOffsets,
    (-1 ≤ d.1 ∧ d.1 ≤ 1) ∧ (-1 ≤ d.2.1 ∧ d.2.1 ≤ 1) ∧ (-1 ≤ d.2.2 ∧ d.2.2 ≤ 1) ∧
    (d.2.2 < 0 ∨ (d.2.2 = 0 ∧ d.2.1 < 0) ∨ (d.2.2 = 0 ∧ d.2.1 = 0 ∧ d.1 < 0)) := by
  decide

/-- Conversely, every lexicographically-preceding unit-cube offset is in the
13-neighbor list. -/
theorem mem_neighborOffsets {dx dy dz : ℤ}
    (hdx : -1 ≤ dx ∧ dx ≤ 1) (hdy : -1 ≤ dy ∧ dy ≤ 1) (hdz : -1 ≤ dz ∧ dz ≤ 1)
    (hlex : dz < 0 ∨ (dz = 0 ∧ dy < 0) ∨ (dz = 0 ∧ dy = 0 ∧ dx < 0)) :
    (dx, dy, dz) ∈ neighborOffsets := by
  have h1 : dx = -1 ∨ dx = 0 ∨ dx = 1 := by omega
  have h2 : dy = -1 ∨ dy = 0 ∨ dy = 1 := by omega
  have h3 : dz = -1 ∨ dz = 0 ∨ dz = 1 := by omega
  rcases h1 with rfl | rfl | rfl <;> rcases h2 with rfl | rfl | rfl <;>
    rcases h3 with rfl | rfl | rfl <;> revert hlex <;> decide

theorem offset_prevNeighbor {W H D x y z : ℕ} (hx : x < W) (hy : y < H) (hz : z < D)
    {dx dy dz : ℤ}
    (hdx : -1 ≤ dx ∧ dx ≤ 1) (hdy : -1 ≤ dy ∧ dy ≤ 1) (hdz : -1 ≤ dz ∧ dz ≤ 1)
    (hlex : dz < 0 ∨ (dz = 0 ∧ dy < 0) ∨ (dz = 0 ∧ dy = 0 ∧ dx < 0))
    (hb1 : 0 ≤ (x : ℤ) + dx) (hb2 : (x : ℤ) + dx < W)
    (hb3 : 0 ≤ (y : ℤ) + dy) (hb4 : (y : ℤ) + dy < H)
    (hb5 : 0 ≤ (z : ℤ) + dz) (hb6 : (z : ℤ) + dz < D) :
    prevNeighbor W H D
      (getIndex W H ((x : ℤ) + dx).toNat ((y : ℤ) + dy).toNat ((z : ℤ) + dz).toNat)
      (getIndex W H x y z) := by
  have hnx : (((x : ℤ) + dx).toNat : ℤ) = (x : ℤ) + dx := Int.toNat_of_nonneg hb1
  have hny : (((y : ℤ) + dy).toNat : ℤ) = (y : ℤ) + dy := Int.toNat_of_nonneg hb3
  have hnz : (((z : ℤ) + dz).toNat : ℤ) = (z : ℤ) + dz := Int.toNat_of_nonneg hb5
  have hxW : ((x : ℤ) + dx).toNat < W := by omega
  have hyH : ((y : ℤ) + dy).toNat < H := by omega
  have hzD : ((z : ℤ) + dz).toNat < D := by omega
  have hlex2 : ((z : ℤ) + dz).toNat < z ∨
      (((z : ℤ) + dz).toNat = z ∧ ((y : ℤ) + dy).toNat < y) ∨
      (((z : ℤ) + dz).toNat = z ∧ ((y : ℤ) + dy).toNat = y ∧
        ((x : ℤ) + dx).toNat < x) := by omega
  have hlt : getIndex W H ((x : ℤ) + dx).toNat ((y : ℤ) + dy).toNat
      ((z : ℤ) + dz).toNat < getIndex W H x y z :=
    getIndex_lt_of_lex hx hy hxW hyH hlex2
  refine ⟨getIndex_lt hxW hyH hzD, getIndex_lt hx hy hz, ?_, hlt⟩
  refine ⟨Nat.ne_of_lt hlt, ?_, ?_, ?_⟩ <;>
    simp only [decodeX_getIndex _ _ _ hxW hyH, decodeX_getIndex _ _ _ hx hy,
      decodeY_getIndex _ _ _ hxW hyH, decodeY_getIndex _ _ _ hx hy,
      decodeZ_getIndex _ _ _ hxW hyH, decodeZ_getIndex _ _ _ hx hy,
      Set.mem_Icc] <;> omega

theorem mem_collectNeighborLabels {W H D : ℕ} (labels : Array ℕ) {x y z : ℕ}
    (hx : x < W) (hy : y < H) (hz : z < D) (l : ℕ) :
    l ∈ collectNeighborLabels W H D labels x y z ↔
      ∃ u, prevNeighbor W H D u (getIndex W H x y z) ∧ labels.getD u 0 = l ∧ 0 < l := by
  rw [collectNeighborLabels, List.mem_filterMap]
  constructor
  · rintro ⟨d, hd, hbody⟩
    obtain ⟨hdx, hdy, hdz, hlex⟩ := neighborOffsets_facts d hd
    simp only at hbody
    by_cases hcond : 0 ≤ (x : ℤ) + d.1 ∧ (x : ℤ) + d.1 < (W : ℤ) ∧
        0 ≤ (y : ℤ) + d.2.1 ∧ (y : ℤ) + d.2.1 < (H : ℤ) ∧
        0 ≤ (z : ℤ) + d.2.2 ∧ (z : ℤ) + d.2.2 < (D : ℤ)
    · rw [if_pos hcond] at hbody
      obtain ⟨hc1, hc2, hc3, hc4, hc5, hc6⟩ := hcond
      by_cases hpos : 0 < labels.getD
          (getIndex W H ((x : ℤ) + d.1).toNat ((y : ℤ) + d.2.1).toNat
            ((z : ℤ) + d.2.2).toNat) 0
      · rw [if_pos hpos] at hbody
        obtain rfl := Option.some_injective _ hbody
        exact ⟨_, offset_prevNeighbor hx hy hz hdx hdy hdz hlex hc1 hc2 hc3 hc4 hc5 hc6,
          rfl, hpos⟩
      · rw [if_neg hpos] at hbody
        exact absurd hbody (by simp)
    · rw [if_neg hcond] at hbody
      exact absurd hbody (by simp)
  · rintro ⟨u, ⟨hu, hv, hadj, hultv⟩, hlab, hpos⟩
    obtain ⟨hux, huy, huz⟩ := decode_lt hu
    have hrecomp : getIndex W H (decodeX W H u) (decodeY W H u) (decodeZ W H u) = u :=
      getIndex_decode hu
    obtain ⟨hne, hIx, hIy, hIz⟩ := hadj
    rw [Set.mem_Icc] at hIx hIy hIz
    rw [decodeX_getIndex _ _ _ hx hy] at hIx
    rw [decodeY_getIndex _ _ _ hx hy] at hIy
    rw [decodeZ_getIndex _ _ _ hx hy] at hIz
    have hlex0 := (getIndex_lt_iff_lex hx hy hux huy).mp (by rw [hrecomp]; exact hultv)
    refine ⟨((decodeX W H u : ℤ) - x, (decodeY W H u : ℤ) - y, (decodeZ W H u : ℤ) - z),
      mem_neighborOffsets ⟨by omega, by omega⟩ ⟨by omega, by omega⟩ ⟨by omega, by omega⟩
        (by omega), ?_⟩
    simp only
    have e1 : ((x : ℤ) + ((decodeX W H u : ℤ) - x)).toNat = decodeX W H u := by omega
    have e2 : ((y : ℤ) + ((decodeY W H u : ℤ) - y)).toNat = decodeY W H u := by omega
    have e3 : ((z : ℤ) + ((decodeZ W H u : ℤ) - z)).toNat = decodeZ W H u := by omega
    rw [if_pos (⟨by omega, by omega, by omega, by omega, by omega, by omega⟩ :
      0 ≤ (x : ℤ) + ((decodeX W H u : ℤ) - x) ∧
      (x : ℤ) + ((decodeX W H u : ℤ) - x) < (W : ℤ) ∧
      0 ≤ (y : ℤ) + ((decodeY W H u : ℤ) - y) ∧
      (y : ℤ) + ((decodeY W H u : ℤ) - y) < (H : ℤ) ∧
      0 ≤ (z : ℤ) + ((decodeZ W H u : ℤ) - z) ∧
      (z : ℤ) + ((decodeZ W H u : ℤ) - z) < (D : ℤ))]
    rw [e1, e2, e3, hrecomp]
    rw [if_pos (hlab ▸ hpos), hlab]


theorem plane_eq (W D : ℕ) (H : ℕ) :
    (List.range H).flatMap (fun y => (List.range W).map fun x => (x, y, D)) =
      (List.range (W * H)).map fun j => (j % W, j / W, D) := by
  induction H with
  | zero => simp
  | succ h ih =>
    rw [List.range_succ, List.flatMap_append, ih, List.flatMap_cons, List.flatMap_nil,
      List.append_nil, Nat.mul_succ, List.range_add, List.map_append, List.map_map]
    congr 1
    apply List.map_congr_left
    intro x hx
    rw [List.mem_range] at hx
    simp only [Function.comp_apply]
    have e1 : (W * h + x) % W = x := by
      rw [Nat.mul_add_mod, Nat.mod_eq_of_lt hx]
    have e2 : (W * h + x) / W = h := by
      rw [Nat.mul_add_div (by omega) h x, Nat.div_eq_of_lt hx]
      omega
    rw [e1, e2]

theorem scanOrder_eq (W H D : ℕ) :
    scanOrder W H D = (List.range (W * H * D)).map
      (fun i => (decodeX W H i, decodeY W H i, decodeZ W H i)) := by
  rcases Nat.eq_zero_or_pos (W * H) with hWH | hWH
  · rw [scanOrder]
    have : W * H * D = 0 := by rw [hWH, Nat.zero_mul]
    rw [this]
    rcases Nat.mul_eq_zero.mp hWH with hW | hH
    · subst hW
      simp
    · subst hH
      simp
  · induction D with
    | zero =>
      rw [scanOrder]
      simp
    | succ d ih =>
      rw [scanOrder, List.range_succ, List.flatMap_append, List.flatMap_cons,
        List.flatMap_nil, List.append_nil]
      rw [scanOrder] at ih
      rw [ih, plane_eq W d H]
      have e : W * H * (d + 1) = W * H * d + W * H := by ring
      rw [e, List.range_add, List.map_append, List.map_map]
      congr 1
      apply List.map_congr_left
      intro j hj
      rw [List.mem_range] at hj
      simp only [Function.comp_apply]
      have e1 : decodeX W H (W * H * d + j) = j % W := by
        rw [decodeX, Nat.mul_add_mod, Nat.mod_eq_of_lt hj]
      have e2 : decodeY W H (W * H * d + j) = j / W := by
        rw [decodeY, Nat.mul_add_mod, Nat.mod_eq_of_lt hj]
      have e3 : decodeZ W H (W * H * d + j) = d := by
        rw [decodeZ, Nat.mul_add_div hWH, Nat.div_eq_of_lt hj]
        omega
      rw [e1, e2, e3]


/-! ## Connectivity basics -/

theorem adj26_symm {W H u v : ℕ} (h : adj26 W H u v) : adj26 W H v u := by
  obtain ⟨hne, hx, hy, hz⟩ := h
  rw [Set.mem_Icc] at hx hy hz
  refine ⟨hne.symm, ?_, ?_, ?_⟩ <;> rw [Set.mem_Icc] <;> constructor <;> omega

theorem fgAdj_symm {data : List ℚ} {W H D u v : ℕ} (h : fgAdj data W H D u v) :
    fgAdj data W H D v u :=
  ⟨h.2.1, h.1, h.2.2.2.1, h.2.2.1, adj26_symm h.2.2.2.2⟩

theorem connectedB_mono {data : List ℚ} {W H D k k' u v : ℕ} (hk : k ≤ k')
    (h : connectedB data W H D k u v) : connectedB data W H D k' u v := by
  induction h with
  | refl => exact Relation.ReflTransGen.refl
  | tail hab hbc ih =>
    exact Relation.ReflTransGen.tail ih ⟨by omega, by omega, hbc.2.2⟩

theorem connectedB_symm {data : List ℚ} {W H D k u v : ℕ}
    (h : connectedB data W H D k u v) : connectedB data W H D k v u := by
  induction h with
  | refl => exact Relation.ReflTransGen.refl
  | tail hab hbc ih =>
    exact Relation.ReflTransGen.trans
      (Relation.ReflTransGen.single ⟨hbc.2.1, hbc.1, fgAdj_symm hbc.2.2⟩) ih

theorem connectedB_size_iff {data : List ℚ} {W H D u v : ℕ} :
    connectedB data W H D (W * H * D) u v ↔ connected data W H D u v := by
  constructor
  · intro h
    induction h with
    | refl => exact Relation.ReflTransGen.refl
    | tail hab hbc ih => exact Relation.ReflTransGen.tail ih hbc.2.2
  · intro h
    induction h with
    | refl => exact Relation.ReflTransGen.refl
    | tail hab hbc ih =>
      exact Relation.ReflTransGen.tail ih ⟨hbc.1, hbc.2.1, hbc⟩

/-! ## Minimum of the neighbor-label list -/

theorem foldl_min_le (t : List ℕ) : ∀ a,
    t.foldl (fun mn l => if l < mn then l else mn) a ≤ a ∧
    ∀ l ∈ t, t.foldl (fun mn l => if l < mn then l else mn) a ≤ l := by
  induction t with
  | nil => exact fun a => ⟨le_refl a, fun l hl => absurd hl (List.not_mem_nil l)⟩
  | cons x xs ih =>
    intro a
    rw [List.foldl_cons]
    by_cases hxa : x < a
    · rw [if_pos hxa]
      refine ⟨le_trans (ih x).1 hxa.le, ?_⟩
      intro l hl
      rcases List.mem_cons.mp hl with rfl | hl
      · exact (ih l).1
      · exact (ih x).2 l hl
    · rw [if_neg hxa]
      refine ⟨(ih a).1, ?_⟩
      intro l hl
      rcases List.mem_cons.mp hl with rfl | hl
      · exact le_trans (ih a).1 (by omega)
      · exact (ih a).2 l hl

theorem foldl_min_mem (t : List ℕ) : ∀ a,
    t.foldl (fun mn l => if l < mn then l else mn) a = a ∨
    t.foldl (fun mn l => if l < mn then l else mn) a ∈ t := by
  induction t with
  | nil => exact fun a => Or.inl rfl
  | cons x xs ih =>
    intro a
    rw [List.foldl_cons]
    by_cases hxa : x < a
    · rw [if_pos hxa]
      rcases ih x with h | h
      · exact Or.inr (by rw [h]; exact List.mem_cons_self x xs)
      · exact Or.inr (List.mem_cons_of_mem x h)
    · rw [if_neg hxa]
      rcases ih a with h | h
      · exact Or.inl h
      · exact Or.inr (List.mem_cons_of_mem x h)


/-! ## Pass-1 invariant: the three step cases -/

theorem p1inv_step_bg (data : List ℚ) (W H D k : ℕ) (s : Pass1State)
    (hk : k < W * H * D) (inv : P1Inv data W H D k s) (hnfg : ¬ isFg data k) :
    P1Inv data W H D (k + 1) s := by
  refine ⟨inv.hdata, inv.hlsize, inv.hpsize, inv.hnl1, by have := inv.hnlk; omega,
    fun _ => inv.hnlk, inv.huf, ?_, ?_, ?_, ?_, ?_, ?_⟩
  · intro i hi hfgi
    rcases Nat.lt_or_ge i k with h | h
    · exact inv.hfg i h hfgi
    · have : i = k := by omega
      subst this
      exact absurd hfgi hnfg
  · intro i hi hnfgi
    rcases Nat.lt_or_ge i k with h | h
    · exact inv.hbg i h hnfgi
    · exact inv.hun i h
  · intro i hi
    exact inv.hun i (by omega)
  · intro u v hu hv hadj
    rcases Nat.lt_or_ge u k with h1 | h1
    · rcases Nat.lt_or_ge v k with h2 | h2
      · exact inv.hsound u v h1 h2 hadj
      · have : v = k := by omega
        subst this
        exact absurd hadj.2.2.2.1 hnfg
    · have : u = k := by omega
      subst this
      exact absurd hadj.2.2.1 hnfg
  · intro u v hu hv hfgu hfgv heq
    rcases Nat.lt_or_ge u k with h1 | h1
    · rcases Nat.lt_or_ge v k with h2 | h2
      · exact connectedB_mono (by omega) (inv.hcomplete u v h1 h2 hfgu hfgv heq)
      · have : v = k := by omega
        subst this
        exact absurd hfgv hnfg
    · have : u = k := by omega
      subst this
      exact absurd hfgu hnfg
  · intro l hl1 hl2
    obtain ⟨u, hu, hfgu, heq⟩ := inv.hcover l hl1 hl2
    exact ⟨u, by omega, hfgu, heq⟩

/-- The first two voxels in scan order are always 26-adjacent (each decoded
coordinate of flat index `1` is at most `1`). -/
theorem adj26_zero_one (W H : ℕ) : adj26 W H 0 1 := by
  have hx0 : decodeX W H 0 = 0 := by simp [decodeX]
  have hy0 : decodeY W H 0 = 0 := by simp [decodeY]
  have hz0 : decodeZ W H 0 = 0 := by simp [decodeZ]
  have hx1 : decodeX W H 1 ≤ 1 :=
    le_trans (Nat.mod_le _ _) (Nat.mod_le _ _)
  have hy1 : decodeY W H 1 ≤ 1 :=
    le_trans (Nat.div_le_self _ _) (Nat.mod_le _ _)
  have hz1 : decodeZ W H 1 ≤ 1 := Nat.div_le_self _ _
  refine ⟨by omega, ?_, ?_, ?_⟩ <;> rw [Set.mem_Icc] <;> omega


theorem p1inv_step_fresh (data : List ℚ) (W H D k : ℕ) (s : Pass1State)
    (hsz : 2 ≤ W * H * D) (hk : k < W * H * D) (inv : P1Inv data W H D k s)
    (hfgk : isFg data k)
    (hc : collectNeighborLabels W H D s.labels (decodeX W H k) (decodeY W H k)
      (decodeZ W H k) = []) :
    P1Inv data W H D (k + 1)
      { s with labels := s.labels.setD k s.nextLabel,
               parent := s.parent.setD s.nextLabel s.nextLabel,
               nextLabel := s.nextLabel + 1 } := by
  obtain ⟨hx, hy, hz⟩ := decode_lt hk
  have hidx := getIndex_decode hk
  have hcol := fun l => mem_collectNeighborLabels (W := W) (H := H) (D := D)
    s.labels hx hy hz l
  rw [hidx] at hcol
  have hnoprev : ∀ u, u < k → isFg data u → ¬ adj26 W H u k := by
    intro u hu hfgu hadj
    have hl1 := (inv.hfg u hu hfgu).1
    have hmem : s.labels.getD u 0 ∈ collectNeighborLabels W H D s.labels
        (decodeX W H k) (decodeY W H k) (decodeZ W H k) :=
      (hcol _).mpr ⟨u, ⟨by omega, hk, hadj, by omega⟩, rfl, by omega⟩
    rw [hc] at hmem
    exact absurd hmem (List.not_mem_nil _)
  have hnk : k = 0 ∨ s.nextLabel ≤ k := by
    by_cases hk0 : k = 0
    · exact Or.inl hk0
    · right
      by_contra hcon
      have hnl : s.nextLabel = k + 1 := by have := inv.hnlk; omega
      rcases Nat.lt_or_ge k 2 with hk2 | hk2
      · have hk1 : k = 1 := by omega
        subst hk1
        obtain ⟨u, hu, hfgu, _⟩ := inv.hcover 1 (le_refl 1) (by omega)
        have hu0 : u = 0 := by omega
        subst hu0
        exact hnoprev 0 (by omega) hfgu (adj26_zero_one W H)
      · have := inv.hnlk2 hk2
        omega
  have hnsize : s.nextLabel < W * H * D := by
    rcases hnk with h | h
    · subst h
      have := inv.hnlk
      omega
    · omega
  have hnl1 := inv.hnl1
  have hnlkk := inv.hnlk
  have hup2 : ∀ l, (s.parent.setD s.nextLabel s.nextLabel).getD l 0 ≤ l := by
    intro l
    by_cases hl : l = s.nextLabel
    · subst hl
      rw [getD_setD_self s.parent _ (by rw [inv.hpsize]; omega)]
    · rw [getD_setD_ne s.parent _ hl]
      exact inv.huf.upper l
  have hvaln : (s.parent.setD s.nextLabel s.nextLabel).getD s.nextLabel 0 =
      s.nextLabel := getD_setD_self s.parent _ (by rw [inv.hpsize]; omega)
  have huf2 : UFInv (s.parent.setD s.nextLabel s.nextLabel) (s.nextLabel + 1) := by
    refine ⟨?_, hup2, ?_⟩
    · intro l hl1 hln
      by_cases hl : l = s.nextLabel
      · subst hl
        rw [hvaln]
        exact inv.hnl1
      · rw [getD_setD_ne s.parent _ hl]
        exact inv.huf.lower l hl1 (by omega)
    · intro l hl
      have hlne : l ≠ s.nextLabel := by omega
      rw [getD_setD_ne s.parent _ hlne]
      exact inv.huf.outside l (by omega)
  have hpres : ∀ j, j < s.nextLabel →
      rootD (s.parent.setD s.nextLabel s.nextLabel) j = rootD s.parent j :=
    rootD_setD_of_gt s.parent inv.huf.upper (le_refl s.nextLabel)
  have hrootn : rootD (s.parent.setD s.nextLabel s.nextLabel) s.nextLabel =
      s.nextLabel := rootD_of_root _ hup2 hvaln
  have hlk : (s.labels.setD k s.nextLabel).getD k 0 = s.nextLabel :=
    getD_setD_self s.labels _ (by rw [inv.hlsize]; omega)
  have hlo : ∀ i, i ≠ k → (s.labels.setD k s.nextLabel).getD i 0 =
      s.labels.getD i 0 := fun i hi => getD_setD_ne s.labels _ hi
  refine ⟨inv.hdata, by dsimp only; rw [Array.size_setD]; exact inv.hlsize,
    by dsimp only; rw [Array.size_setD]; exact inv.hpsize, by dsimp only; omega,
    by dsimp only; have := inv.hnlk; omega,
    by dsimp only; intro h; rcases hnk with h0 | h0 <;> omega,
    huf2, ?_, ?_, ?_, ?_, ?_, ?_⟩
  · dsimp only
    intro i hi hfgi
    by_cases hik : i = k
    · subst hik
      rw [hlk]
      omega
    · rw [hlo i hik]
      have := inv.hfg i (by omega) hfgi
      omega
  · dsimp only
    intro i hi hnfgi
    by_cases hik : i = k
    · subst hik
      exact absurd hfgk hnfgi
    · rw [hlo i hik]
      exact inv.hbg i (by omega) hnfgi
  · dsimp only
    intro i hi
    rw [hlo i (by omega)]
    exact inv.hun i (by omega)
  · dsimp only
    intro u v hu hv hadj
    by_cases huk : u = k
    · subst huk
      by_cases hvk : v = u
      · rw [hvk]
      · have hvlt : v < u := by omega
        exact absurd (adj26_symm hadj.2.2.2.2) (hnoprev v hvlt hadj.2.2.2.1)
    · by_cases hvk : v = k
      · subst hvk
        exact absurd hadj.2.2.2.2 (hnoprev u (by omega) hadj.2.2.1)
      · rw [hlo u huk, hlo v hvk]
        have h1 := (inv.hfg u (by omega) hadj.2.2.1).2
        have h2 := (inv.hfg v (by omega) hadj.2.2.2.1).2
        rw [hpres _ (by omega), hpres _ (by omega)]
        exact inv.hsound u v (by omega) (by omega) hadj
  · dsimp only
    intro u v hu hv hfgu hfgv heq
    by_cases huk : u = k
    · subst huk
      by_cases hvk : v = u
      · rw [hvk]
        exact Relation.ReflTransGen.refl
      · have hvlt : v < u := by omega
        rw [hlk, hlo v (by omega), hrootn] at heq
        have h2 := inv.hfg v hvlt hfgv
        have hle := rootD_le s.parent inv.huf.upper (s.labels.getD v 0)
        rw [hpres _ (by omega)] at heq
        omega
    · by_cases hvk : v = k
      · subst hvk
        rw [hlk, hlo u (by omega), hrootn] at heq
        have h2 := inv.hfg u (by omega) hfgu
        have hle := rootD_le s.parent inv.huf.upper (s.labels.getD u 0)
        rw [hpres _ (by omega)] at heq
        omega
      · rw [hlo u huk, hlo v hvk] at heq
        have h1 := (inv.hfg u (by omega) hfgu).2
        have h2 := (inv.hfg v (by omega) hfgv).2
        rw [hpres _ (by omega), hpres _ (by omega)] at heq
        exact connectedB_mono (by omega)
          (inv.hcomplete u v (by omega) (by omega) hfgu hfgv heq)
  · dsimp only
    intro l hl1 hl2
    by_cases hln : l = s.nextLabel
    · subst hln
      exact ⟨k, by omega, hfgk, by rw [hlk]⟩
    · obtain ⟨u, hu, hfgu, heq⟩ := inv.hcover l hl1 (by omega)
      refine ⟨u, by omega, hfgu, ?_⟩
      rw [hlo u (by omega)]
      have h1 := (inv.hfg u hu hfgu).2
      rw [hpres _ (by omega), hpres _ (by omega)]
      exact heq


theorem p1inv_step_merge (data : List ℚ) (W H D k : ℕ) (s : Pass1State)
    (hk : k < W * H * D) (inv : P1Inv data W H D k s)
    (hfgk : isFg data k) (h0 : ℕ) (t : List ℕ)
    (hc : collectNeighborLabels W H D s.labels (decodeX W H k) (decodeY W H k)
      (decodeZ W H k) = h0 :: t) :
    P1Inv data W H D (k + 1)
      { s with
        labels := s.labels.setD k
          ((h0 :: t).foldl (fun mn l => if l < mn then l else mn) h0),
        parent := (h0 :: t).foldl (fun p l => union p l
          ((h0 :: t).foldl (fun mn l => if l < mn then l else mn) h0)) s.parent } := by
  obtain ⟨hx, hy, hz⟩ := decode_lt hk
  have hidx := getIndex_decode hk
  have hcol := fun l => mem_collectNeighborLabels (W := W) (H := H) (D := D)
    s.labels hx hy hz l
  rw [hidx] at hcol
  set m := (h0 :: t).foldl (fun mn l => if l < mn then l else mn) h0 with hm
  have hmemL : ∀ l ∈ h0 :: t, ∃ u, u < k ∧ isFg data u ∧ adj26 W H u k ∧
      s.labels.getD u 0 = l ∧ 0 < l := by
    intro l hl
    rw [← hc] at hl
    obtain ⟨u, ⟨hu1, hu2, hu3, hu4⟩, hlab, hpos⟩ := (hcol l).mp hl
    have hfgu : isFg data u := by
      by_contra hnot
      rw [inv.hbg u hu4 hnot] at hlab
      omega
    exact ⟨u, hu4, hfgu, hu3, hlab, hpos⟩
  have hrange : ∀ l ∈ h0 :: t, 1 ≤ l ∧ l < s.nextLabel := by
    intro l hl
    obtain ⟨u, hu, hfgu, _, hlab, hpos⟩ := hmemL l hl
    have := inv.hfg u hu hfgu
    omega
  have hm' : m = t.foldl (fun mn l => if l < mn then l else mn) h0 := by
    rw [hm, List.foldl_cons, if_neg (lt_irrefl h0)]
  have hm_mem : m ∈ h0 :: t := by
    rw [hm']
    rcases foldl_min_mem t h0 with h | h
    · rw [h]
      exact List.mem_cons_self h0 t
    · exact List.mem_cons_of_mem h0 h
  have hm1 := hrange m hm_mem
  have hprevmem : ∀ u, u < k → isFg data u → adj26 W H u k →
      s.labels.getD u 0 ∈ h0 :: t := by
    intro u hu hfgu hadj
    rw [← hc]
    refine (hcol _).mpr ⟨u, ⟨by omega, hk, hadj, hu⟩, rfl, ?_⟩
    have := inv.hfg u hu hfgu
    omega
  have hnsize : s.nextLabel ≤ s.parent.size := by
    rw [inv.hpsize]
    have := inv.hnlk
    omega
  obtain ⟨huf2, hsz2, hchar⟩ := foldUnion_spec s.nextLabel m hm1.1 hm1.2 (h0 :: t)
    hrange s.parent inv.huf hnsize
  have hmerged := foldUnion_merged s.nextLabel m hm1.1 hm1.2 (h0 :: t) hrange
    s.parent inv.huf hnsize
  have hlk : (s.labels.setD k m).getD k 0 = m :=
    getD_setD_self s.labels _ (by rw [inv.hlsize]; omega)
  have hlo : ∀ i, i ≠ k → (s.labels.setD k m).getD i 0 = s.labels.getD i 0 :=
    fun i hi => getD_setD_ne s.labels _ hi
  have hstep : ∀ w, w < k → isFg data w →
      (∃ l ∈ h0 :: t, rootD s.parent (s.labels.getD w 0) = rootD s.parent l) →
      connectedB data W H D (k + 1) w k := by
    rintro w hw hfgw ⟨l, hl, heql⟩
    obtain ⟨a, ha, hfga, hadja, hlab, _⟩ := hmemL l hl
    have hconn : connectedB data W H D k w a :=
      inv.hcomplete w a hw ha hfgw hfga (by rw [hlab]; exact heql)
    exact Relation.ReflTransGen.tail (connectedB_mono (by omega) hconn)
      ⟨by omega, by omega, by omega, hk, hfga, hfgk, hadja⟩
  have hA_of : ∀ w, (rootD s.parent (s.labels.getD w 0) = rootD s.parent m ∨
      ∃ l ∈ h0 :: t, rootD s.parent (s.labels.getD w 0) = rootD s.parent l) →
      ∃ l ∈ h0 :: t, rootD s.parent (s.labels.getD w 0) = rootD s.parent l := by
    intro w hw
    rcases hw with hw | hw
    · exact ⟨m, hm_mem, hw⟩
    · exact hw
  refine ⟨inv.hdata, by dsimp only; rw [Array.size_setD]; exact inv.hlsize,
    by dsimp only; rw [hsz2]; exact inv.hpsize, inv.hnl1,
    by dsimp only; have := inv.hnlk; omega,
    by dsimp only; intro h; have := inv.hnlk; omega,
    huf2, ?_, ?_, ?_, ?_, ?_, ?_⟩
  · dsimp only
    intro i hi hfgi
    by_cases hik : i = k
    · subst hik
      rw [hlk]
      omega
    · rw [hlo i hik]
      exact inv.hfg i (by omega) hfgi
  · dsimp only
    intro i hi hnfgi
    by_cases hik : i = k
    · subst hik
      exact absurd hfgk hnfgi
    · rw [hlo i hik]
      exact inv.hbg i (by omega) hnfgi
  · dsimp only
    intro i hi
    rw [hlo i (by omega)]
    exact inv.hun i (by omega)
  · dsimp only
    intro u v hu hv hadj
    by_cases huk : u = k
    · subst huk
      by_cases hvk : v = u
      · rw [hvk]
      · have hvlt : v < u := by omega
        rw [hlk, hlo v (by omega)]
        exact ((hmerged _).mpr (Or.inr ⟨s.labels.getD v 0,
          hprevmem v hvlt hadj.2.2.2.1 (adj26_symm hadj.2.2.2.2), rfl⟩)).symm
    · by_cases hvk : v = k
      · subst hvk
        rw [hlk, hlo u huk]
        exact (hmerged _).mpr (Or.inr ⟨s.labels.getD u 0,
          hprevmem u (by omega) hadj.2.2.1 hadj.2.2.2.2, rfl⟩)
      · rw [hlo u huk, hlo v hvk]
        exact ((hchar _ _).mpr (Or.inl
          (inv.hsound u v (by omega) (by omega) hadj)))
  · dsimp only
    intro u v hu hv hfgu hfgv heq
    by_cases huk : u = k
    · subst huk
      by_cases hvk : v = u
      · rw [hvk]
        exact Relation.ReflTransGen.refl
      · have hvlt : v < u := by omega
        rw [hlk, hlo v (by omega)] at heq
        have hA := (hmerged (s.labels.getD v 0)).mp heq.symm
        exact connectedB_symm (hstep v hvlt hfgv (hA_of v hA))
    · by_cases hvk : v = k
      · subst hvk
        rw [hlk, hlo u huk] at heq
        have hA := (hmerged (s.labels.getD u 0)).mp heq
        exact hstep u (by omega) hfgu (hA_of u hA)
      · have hult : u < k := by omega
        have hvlt : v < k := by omega
        rw [hlo u huk, hlo v hvk] at heq
        rcases (hchar _ _).mp heq with hold | ⟨hA1, hA2⟩
        · exact connectedB_mono (by omega)
            (inv.hcomplete u v hult hvlt hfgu hfgv hold)
        · exact Relation.ReflTransGen.trans
            (hstep u hult hfgu (hA_of u hA1))
            (connectedB_symm (hstep v hvlt hfgv (hA_of v hA2)))
  · dsimp only
    intro l hl1 hl2
    obtain ⟨u, hu, hfgu, heq⟩ := inv.hcover l hl1 hl2
    refine ⟨u, by omega, hfgu, ?_⟩
    rw [hlo u (by omega)]
    exact (hchar _ _).mpr (Or.inl heq)


theorem p1inv_step (data : List ℚ) (W H D k : ℕ) (s : Pass1State)
    (hsz : 2 ≤ W * H * D) (hk : k < W * H * D) (inv : P1Inv data W H D k s) :
    P1Inv data W H D (k + 1)
      (pass1Step W H D s (decodeX W H k, decodeY W H k, decodeZ W H k)) := by
  have hidx : getIndex W H (decodeX W H k) (decodeY W H k) (decodeZ W H k) = k :=
    getIndex_decode hk
  unfold pass1Step
  dsimp only
  rw [hidx, show s.data.getD k 0 = data.getD k 0 from by rw [inv.hdata]]
  by_cases hfg : data.getD k 0 > (1 / 2 : ℚ)
  · rw [if_pos hfg]
    rcases hcc : collectNeighborLabels W H D s.labels (decodeX W H k)
        (decodeY W H k) (decodeZ W H k) with _ | ⟨h0, t⟩
    · exact p1inv_step_fresh data W H D k s hsz hk inv hfg hcc
    · exact p1inv_step_merge data W H D k s hk inv hfg h0 t hcc
  · rw [if_neg hfg]
    exact p1inv_step_bg data W H D k s hk inv hfg

theorem p1inv_base (data : List ℚ) (W H D : ℕ) :
    P1Inv data W H D 0
      { data := data
        labels := Array.mkArray (W * H * D) 0
        parent := Array.mkArray (W * H * D) 0
        nextLabel := 1 } := by
  refine ⟨rfl, Array.size_mkArray _ _, Array.size_mkArray _ _, le_refl 1,
    le_refl 1, fun h => absurd h (by omega), ⟨?_, ?_, ?_⟩, ?_, ?_, ?_, ?_, ?_, ?_⟩ <;>
    dsimp only
  · intro l h1 h2
    omega
  · intro l
    rw [getD_mkArray]
    omega
  · intro l _
    exact getD_mkArray _ _
  · intro i hi
    omega
  · intro i hi
    omega
  · intro i _
    exact getD_mkArray _ _
  · intro u v hu
    omega
  · intro u v hu
    omega
  · intro l h1 h2
    omega

theorem p1inv_pass1 (data : List ℚ) (W H D : ℕ) (hsz : 2 ≤ W * H * D) :
    P1Inv data W H D (W * H * D) (pass1 data W H D) := by
  rw [pass1, scanOrder_eq]
  have key : ∀ N, N ≤ W * H * D →
      P1Inv data W H D N
        (((List.range N).map
            (fun i => (decodeX W H i, decodeY W H i, decodeZ W H i))).foldl
          (pass1Step W H D)
          { data := data
            labels := Array.mkArray (W * H * D) 0
            parent := Array.mkArray (W * H * D) 0
            nextLabel := 1 }) := by
    intro N
    induction N with
    | zero =>
      intro _
      simpa using p1inv_base data W H D
    | succ n ih =>
      intro hN
      rw [List.range_succ, List.map_append, List.foldl_append]
      simp only [List.map_cons, List.map_nil, List.foldl_cons, List.foldl_nil]
      exact p1inv_step data W H D n _ hsz (by omega) (ih (by omega))
  exact key (W * H * D) (le_refl _)


theorem getD_oob (a : Array ℕ) {i : ℕ} (h : a.size ≤ i) : a.getD i 0 = 0 := by
  rw [Array.getD_eq_get?]
  rw [Array.getElem?_eq_none_iff.mpr h]
  rfl

theorem occList_succ (roots : List ℕ) (s1 : Pass1State) (j fl : ℕ) :
    occList roots s1 (j + 1) fl =
      occList roots s1 j fl ++
        (if finalMapped roots s1 j = some fl then [j] else []) := by
  rw [occList, occList, List.range_succ, List.filter_append]
  by_cases h : finalMapped roots s1 j = some fl
  · rw [if_pos h]
    simp [h]
  · rw [if_neg h]
    simp [h]

theorem updateCent_keys (cs : List Cent) (k x y z : ℕ) :
    (updateCent cs k x y z).map Cent.key =
      if k ∈ cs.map Cent.key then cs.map Cent.key
      else cs.map Cent.key ++ [k] := by
  rw [updateCent]
  by_cases h : k ∈ cs.map Cent.key
  · obtain ⟨c0, hc0, hk0⟩ := List.mem_map.mp h
    have hany : (cs.any fun c => c.key = k) = true :=
      List.any_eq_true.mpr ⟨c0, hc0, decide_eq_true hk0⟩
    rw [if_pos hany, if_pos h, List.map_map]
    apply List.map_congr_left
    intro c _
    by_cases hck : c.key = k
    · simp only [Function.comp_apply, if_pos hck]
    · simp only [Function.comp_apply, if_neg hck]
  · have hany : (cs.any fun c => c.key = k) = false := by
      rw [List.any_eq_false]
      intro c hc hck
      exact h (List.mem_map.mpr ⟨c, hc, of_decide_eq_true hck⟩)
    rw [hany, if_neg h]
    simp


theorem mem_updateCent_keys (cs : List Cent) (k x y z k2 : ℕ) :
    k2 ∈ (updateCent cs k x y z).map Cent.key ↔
      (k2 ∈ cs.map Cent.key ∨ k2 = k) := by
  rw [updateCent_keys]
  by_cases h : k ∈ cs.map Cent.key
  · rw [if_pos h]
    constructor
    · exact Or.inl
    · rintro (h2 | rfl)
      · exact h2
      · exact h
  · rw [if_neg h]
    simp [List.mem_append]

theorem p2inv_step (W H : ℕ) (roots : List ℕ) (s1 : Pass1State) (j : ℕ)
    (s : Pass2State) (inv : P2Inv roots s1 j s) :
    P2Inv roots s1 (j + 1) (pass2Step W H roots s j) := by
  have hocc := occList_succ roots s1 j
  unfold pass2Step
  dsimp only
  by_cases hl : 0 < s.labels.getD j 0
  · rw [if_pos hl]
    obtain ⟨h1, hpres, huf2, hsz2⟩ :=
      find_spec s.parent s1.nextLabel inv.huf (s.labels.getD j 0)
    have hl1 : s.labels.getD j 0 = s1.labels.getD j 0 := inv.htodo j (le_refl j)
    have hjlt : j < s.labels.size := by
      by_contra hge
      rw [getD_oob s.labels (by omega)] at hl
      omega
    have hfm : finalMapped roots s1 j =
        labelMapGet roots (find s.parent (s.labels.getD j 0)).1 := by
      rw [finalMapped, if_pos (hl1 ▸ hl), h1, inv.hroot, hl1]
    rcases hmg : labelMapGet roots (find s.parent (s.labels.getD j 0)).1 with _ | fl
    · have hfm0 : finalMapped roots s1 j = none := hfm.trans hmg
      refine ⟨inv.hdata, ?_, ?_, ?_, ?_, ?_, huf2, inv.hkeys, ?_, ?_⟩ <;> dsimp only
      · rw [Array.size_setD]
        exact inv.hlsize
      · rw [hsz2]
        exact inv.hpsize
      · intro i hi
        by_cases hij : i = j
        · subst hij
          rw [getD_setD_self s.labels _ hjlt, finalOf, hfm0]
          rfl
        · rw [getD_setD_ne s.labels _ hij]
          exact inv.hdone i (by omega)
      · intro i hi
        rw [getD_setD_ne s.labels _ (by omega)]
        exact inv.htodo i (by omega)
      · intro l
        rw [hpres l]
        exact inv.hroot l
      · intro c hc
        rw [hocc c.key, hfm0, if_neg (fun hh => Option.noConfusion hh),
          List.append_nil]
        exact inv.hcnt c hc
      · intro fl2 i hi hf
        by_cases hij : i = j
        · subst hij
          rw [hfm0] at hf
          exact Option.noConfusion hf
        · exact inv.hkey fl2 i (by omega) hf
    · have hfm1 : finalMapped roots s1 j = some fl := hfm.trans hmg
      refine ⟨inv.hdata, ?_, ?_, ?_, ?_, ?_, huf2, ?_, ?_, ?_⟩ <;> dsimp only
      · rw [Array.size_setD]
        exact inv.hlsize
      · rw [hsz2]
        exact inv.hpsize
      · intro i hi
        by_cases hij : i = j
        · subst hij
          rw [getD_setD_self s.labels _ hjlt, finalOf, hfm1]
          rfl
        · rw [getD_setD_ne s.labels _ hij]
          exact inv.hdone i (by omega)
      · intro i hi
        rw [getD_setD_ne s.labels _ (by omega)]
        exact inv.htodo i (by omega)
      · intro l
        rw [hpres l]
        exact inv.hroot l
      · rw [updateCent_keys]
        by_cases hin : fl ∈ s.cents.map Cent.key
        · rw [if_pos hin]
          exact inv.hkeys
        · rw [if_neg hin]
          refine List.Nodup.append inv.hkeys (List.nodup_singleton fl) ?_
          intro a ha hb
          rw [List.mem_singleton] at hb
          subst hb
          exact hin ha
      · intro c hc
        rw [updateCent] at hc
        by_cases hin : fl ∈ s.cents.map Cent.key
        · obtain ⟨c1, hc1, hk1⟩ := List.mem_map.mp hin
          rw [if_pos (List.any_eq_true.mpr ⟨c1, hc1, decide_eq_true hk1⟩)] at hc
          obtain ⟨c0, hc0, rfl⟩ := List.mem_map.mp hc
          by_cases hc0k : c0.key = fl
          · rw [if_pos hc0k]
            dsimp only
            rw [hocc c0.key, if_pos (hc0k ▸ hfm1)]
            obtain ⟨hcnt0, _⟩ := inv.hcnt c0 hc0
            refine ⟨by rw [List.length_append, hcnt0, List.length_singleton], ?_⟩
            intro habs
            exact absurd (List.append_eq_nil.mp habs).2 (by simp)
          · rw [if_neg hc0k]
            rw [hocc c0.key, if_neg ?_, List.append_nil]
            · exact inv.hcnt c0 hc0
            · intro hh
              rw [hfm1] at hh
              exact hc0k (Option.some.inj hh).symm
        · rw [if_neg ?_] at hc
          · rcases List.mem_append.mp hc with hc2 | hc2
            · have hck : c.key ≠ fl := by
                intro hh
                exact hin (List.mem_map.mpr ⟨c, hc2, hh⟩)
              rw [hocc c.key, if_neg ?_, List.append_nil]
              · exact inv.hcnt c hc2
              · intro hh
                rw [hfm1] at hh
                exact hck (Option.some.inj hh).symm
            · rw [List.mem_singleton] at hc2
              subst hc2
              dsimp only
              have hempty : occList roots s1 j fl = [] := by
                by_contra hne
                obtain ⟨i, hi⟩ := List.exists_mem_of_ne_nil _ hne
                rw [occList, List.mem_filter] at hi
                obtain ⟨c2, hc2b, hk2⟩ := inv.hkey fl i (List.mem_range.mp hi.1)
                  (of_decide_eq_true hi.2)
                exact hin (List.mem_map.mpr ⟨c2, hc2b, hk2⟩)
              rw [hocc fl, if_pos hfm1, hempty]
              refine ⟨rfl, by simp⟩
          · intro hany
            obtain ⟨c2, hc2, hk2⟩ := List.any_eq_true.mp hany
            exact hin (List.mem_map.mpr ⟨c2, hc2, of_decide_eq_true hk2⟩)
      · intro fl2 i hi hf
        have hmem : fl2 ∈ (updateCent s.cents fl (decodeX W H j) (decodeY W H j)
            (decodeZ W H j)).map Cent.key := by
          rw [mem_updateCent_keys]
          by_cases hij : i = j
          · subst hij
            rw [hfm1] at hf
            exact Or.inr (Option.some.inj hf).symm
          · obtain ⟨c2, hc2, hk2⟩ := inv.hkey fl2 i (by omega) hf
            exact Or.inl (List.mem_map.mpr ⟨c2, hc2, hk2⟩)
        obtain ⟨c2, hc2, hk2⟩ := List.mem_map.mp hmem
        exact ⟨c2, hc2, hk2⟩
  · rw [if_neg hl]
    have hl1 : s.labels.getD j 0 = s1.labels.getD j 0 := inv.htodo j (le_refl j)
    have hfm0 : finalMapped roots s1 j = none := by
      rw [finalMapped, if_neg (by omega)]
    refine ⟨inv.hdata, inv.hlsize, inv.hpsize, ?_, ?_, inv.hroot, inv.huf,
      inv.hkeys, ?_, ?_⟩
    · intro i hi
      by_cases hij : i = j
      · subst hij
        rw [hl1] at hl
        rw [finalOf, hfm0, Option.getD_none, inv.htodo i (le_refl i)]
        omega
      · exact inv.hdone i (by omega)
    · intro i hi
      exact inv.htodo i (by omega)
    · intro c hc
      rw [hocc c.key, hfm0, if_neg (fun hh => Option.noConfusion hh),
        List.append_nil]
      exact inv.hcnt c hc
    · intro fl2 i hi hf
      by_cases hij : i = j
      · subst hij
        rw [hfm0] at hf
        exact Option.noConfusion hf
      · exact inv.hkey fl2 i (by omega) hf


theorem p2inv_pass2 (W H D : ℕ) (s1 : Pass1State)
    (huf : UFInv s1.parent s1.nextLabel) :
    P2Inv (rootLabels s1) s1 (W * H * D) (pass2 W H D s1) := by
  rw [pass2]
  have key : ∀ N, P2Inv (rootLabels s1) s1 N
      ((List.range N).foldl (pass2Step W H (rootLabels s1))
        { data := s1.data, labels := s1.labels, parent := s1.parent,
          cents := [] }) := by
    intro N
    induction N with
    | zero =>
      refine ⟨rfl, rfl, rfl, ?_, ?_, fun l => rfl, huf, by simp, ?_, ?_⟩
      · intro i hi
        exact absurd hi (Nat.not_lt_zero i)
      · intro i _
        rfl
      · intro c hc
        exact absurd hc (List.not_mem_nil c)
      · intro fl i hi _
        exact absurd hi (Nat.not_lt_zero i)
    | succ n ih =>
      rw [List.range_succ, List.foldl_append, List.foldl_cons, List.foldl_nil]
      exact p2inv_step W H (rootLabels s1) s1 n _ ih
  exact key (W * H * D)


theorem connected_symm {data : List ℚ} {W H D u v : ℕ}
    (h : connected data W H D u v) : connected data W H D v u :=
  Relation.ReflTransGen.symmetric (fun _ _ hab => fgAdj_symm hab) h

theorem isFg_lt (data : List ℚ) (W H D : ℕ) (hlen : data.length = W * H * D)
    {i : ℕ} (h : isFg data i) : i < W * H * D := by
  by_contra hge
  have hz : data.getD i 0 = 0 := List.getD_eq_default _ _ (by omega)
  unfold isFg at h
  rw [hz] at h
  norm_num at h

theorem connected_rootD_eq (data : List ℚ) (W H D : ℕ) {s : Pass1State}
    (inv : P1Inv data W H D (W * H * D) s) {u v : ℕ}
    (h : connected data W H D u v) :
    rootD s.parent (s.labels.getD u 0) = rootD s.parent (s.labels.getD v 0) := by
  induction h with
  | refl => rfl
  | tail hab hbc ih => exact ih.trans (inv.hsound _ _ hbc.1 hbc.2.1 hbc)

theorem finalMapped_fg (data : List ℚ) (W H D : ℕ) (hsz : 2 ≤ W * H * D) {i : ℕ}
    (hi : i < W * H * D) (hfg : isFg data i) :
    finalMapped (rootLabels (pass1 data W H D)) (pass1 data W H D) i =
      some ((rootLabels (pass1 data W H D)).indexOf
        (rootD (pass1 data W H D).parent
          ((pass1 data W H D).labels.getD i 0)) + 1) ∧
    rootD (pass1 data W H D).parent ((pass1 data W H D).labels.getD i 0) ∈
      rootLabels (pass1 data W H D) := by
  have inv := p1inv_pass1 data W H D hsz
  obtain ⟨h1, h2⟩ := inv.hfg i hi hfg
  have hup := inv.huf.upper
  have hrle : rootD (pass1 data W H D).parent
      ((pass1 data W H D).labels.getD i 0) ≤
      (pass1 data W H D).labels.getD i 0 := rootD_le _ hup _
  have hr1 : 1 ≤ rootD (pass1 data W H D).parent
      ((pass1 data W H D).labels.getD i 0) :=
    rootD_lower _ _ inv.huf _ h1 h2
  have hfix := rootD_fix (pass1 data W H D).parent hup
    ((pass1 data W H D).labels.getD i 0)
  have hn1 := inv.hnl1
  have hmem : rootD (pass1 data W H D).parent
      ((pass1 data W H D).labels.getD i 0) ∈ rootLabels (pass1 data W H D) := by
    rw [rootLabels, List.mem_filter]
    exact ⟨List.mem_range'_1.mpr ⟨hr1, by omega⟩, decide_eq_true hfix⟩
  refine ⟨?_, hmem⟩
  rw [finalMapped, if_pos (by omega), labelMapGet, if_pos hmem]

theorem finalLabel_eq_finalOf (data : List ℚ) (W H D : ℕ) (hsz : 2 ≤ W * H * D)
    (i : ℕ) :
    finalLabel data (W, H, D) i =
      finalOf (rootLabels (pass1 data W H D)) (pass1 data W H D) i := by
  have inv1 := p1inv_pass1 data W H D hsz
  have inv2 := p2inv_pass2 W H D (pass1 data W H D) inv1.huf
  have hlm : (findConnectedComponents data (W, H, D)).labeledMask =
      (pass2 W H D (pass1 data W H D)).labels := rfl
  rw [finalLabel, hlm]
  rcases Nat.lt_or_ge i (W * H * D) with h | h
  · exact inv2.hdone i h
  · have hz : (pass1 data W H D).labels.getD i 0 = 0 :=
      getD_oob _ (by rw [inv1.hlsize]; omega)
    rw [getD_oob _ (by rw [inv2.hlsize, inv1.hlsize]; omega), finalOf, finalMapped,
      if_neg (by omega), Option.getD_none]

theorem finalLabel_fg_iff_connected (data : List ℚ) (W H D : ℕ)
    (hsz : 2 ≤ W * H * D) {u v : ℕ} (hu : u < W * H * D) (hv : v < W * H * D)
    (hfgu : isFg data u) (hfgv : isFg data v) :
    finalLabel data (W, H, D) u = finalLabel data (W, H, D) v ↔
      connected data W H D u v := by
  have inv := p1inv_pass1 data W H D hsz
  obtain ⟨hmu, hru⟩ := finalMapped_fg data W H D hsz hu hfgu
  obtain ⟨hmv, hrv⟩ := finalMapped_fg data W H D hsz hv hfgv
  rw [finalLabel_eq_finalOf data W H D hsz, finalLabel_eq_finalOf data W H D hsz,
    finalOf, finalOf, hmu, hmv, Option.getD_some, Option.getD_some]
  constructor
  · intro h
    have hidx := Nat.succ_injective h
    have hre := (List.indexOf_inj hru hrv).mp hidx
    exact connectedB_size_iff.mp (inv.hcomplete u v hu hv hfgu hfgv hre)
  · intro h
    rw [connected_rootD_eq data W H D inv h]

theorem finalMapped_bounds {roots : List ℕ} {s1 : Pass1State} {i fl : ℕ}
    (h : finalMapped roots s1 i = some fl) : 1 ≤ fl ∧ fl ≤ roots.length := by
  rw [finalMapped] at h
  by_cases hact : 0 < s1.labels.getD i 0
  · rw [if_pos hact, labelMapGet] at h
    by_cases hm : rootD s1.parent (s1.labels.getD i 0) ∈ roots
    · rw [if_pos hm] at h
      have hlt := List.indexOf_lt_length.mpr hm
      have h2 := Option.some.inj h
      omega
    · rw [if_neg hm] at h
      exact Option.noConfusion h
  · rw [if_neg hact] at h
    exact Option.noConfusion h

theorem mem_sortLesions (l : List Lesion) (r : Lesion) :
    r ∈ sortLesions l ↔ r ∈ l := by
  rw [sortLesions]
  exact (List.mergeSort_perm l _).mem_iff


theorem lesions_nil_small (data : List ℚ) (W H D : ℕ) (h : W * H * D ≤ 1) :
    (findConnectedComponents data (W, H, D)).lesions = [] := by
  have hc : (pass2 W H D (pass1 data W H D)).cents = [] ∨
      ∃ c, (pass2 W H D (pass1 data W H D)).cents = [c] ∧ c.cnt = 1 := by
    rw [pass2]
    rcases Nat.le_one_iff_eq_zero_or_eq_one.mp h with h0 | h1
    · rw [h0]
      exact Or.inl rfl
    · rw [h1]
      rw [show List.range 1 = [0] from rfl, List.foldl_cons, List.foldl_nil]
      unfold pass2Step
      dsimp only
      by_cases hl : 0 < (pass1 data W H D).labels.getD 0 0
      · rw [if_pos hl]
        rcases hmg : labelMapGet (rootLabels (pass1 data W H D))
            (find (pass1 data W H D).parent
              ((pass1 data W H D).labels.getD 0 0)).1 with _ | fl
        · exact Or.inl rfl
        · exact Or.inr ⟨_, rfl, rfl⟩
      · rw [if_neg hl]
        exact Or.inl rfl
  have hles : (findConnectedComponents data (W, H, D)).lesions =
      sortLesions (mkLesions (pass2 W H D (pass1 data W H D)).cents) := rfl
  rcases hc with hc | ⟨c, hc, hcnt⟩
  · rw [hles, hc]
    simp [mkLesions, sortLesions]
  · rw [hles, hc, mkLesions, List.filter_cons,
      if_neg (by rw [hcnt]; decide), List.filter_nil, List.map_nil]
    simp [sortLesions]

/-- **C10** (amended): when the buffer length matches the dims and the volume
has at least two voxels, the returned `labeledMask` is positive exactly on
the foreground voxels (input value `> 0.5`), every background voxel maps to
`0`, and every label is at most the number of connected components found
before the size filter. -/
theorem labeledMask_fg_iff (data : List ℚ) (W H D : ℕ) (i : ℕ)
    (hlen : data.length = W * H * D) (hsz : 2 ≤ W * H * D) :
    (0 < finalLabel data (W, H, D) i ↔ isFg data i) ∧
    finalLabel data (W, H, D) i ≤ componentCount data (W, H, D) := by
  have inv := p1inv_pass1 data W H D hsz
  have hcc : componentCount data (W, H, D) =
      (rootLabels (pass1 data W H D)).length := rfl
  rw [finalLabel_eq_finalOf data W H D hsz, hcc]
  by_cases hfg : isFg data i
  · have hi : i < W * H * D := isFg_lt data W H D hlen hfg
    obtain ⟨hm, hr⟩ := finalMapped_fg data W H D hsz hi hfg
    rw [finalOf, hm, Option.getD_some]
    have hlt := List.indexOf_lt_length.mpr hr
    exact ⟨⟨fun _ => hfg, fun _ => by omega⟩, by omega⟩
  · have hz : (pass1 data W H D).labels.getD i 0 = 0 := by
      rcases Nat.lt_or_ge i (W * H * D) with hlt | hge
      · exact inv.hbg i hlt hfg
      · exact getD_oob _ (by rw [inv.hlsize]; omega)
    rw [finalOf, finalMapped, if_neg (by omega), Option.getD_none]
    exact ⟨⟨fun hh => absurd hh (lt_irrefl 0), fun hh => absurd hh hfg⟩,
      Nat.zero_le _⟩

/-- **C10** (witness): for the 2-voxel mask `[1, 0]` on a `2×1×1` grid the
claim instantiates: voxel 0 is foreground with a positive label bounded by
the component count, as checked by applying the theorem at this input. -/
theorem labeledMask_fg_iff_witness :
    (0 < finalLabel [1, 0] (2, 1, 1) 0 ↔ isFg [1, 0] 0) ∧
    finalLabel [1, 0] (2, 1, 1) 0 ≤ componentCount [1, 0] (2, 1, 1) :=
  labeledMask_fg_iff [1, 0] 2 1 1 0 rfl (by norm_num)


theorem sortLesions_perm (l : List Lesion) : (sortLesions l).Perm l :=
  List.mergeSort_perm l _

theorem mkLesions_ids (cs : List Cent) :
    (mkLesions cs).map Lesion.id =
      (cs.filter fun c => 10 < c.cnt).map Cent.key := by
  rw [mkLesions, List.map_map]
  exact List.map_congr_left fun c _ => rfl

/-- **C3** (amended): the emitted lesion ids are pairwise distinct and every
id lies in `[1, C]`, where `C` is the number of components found before the
`>10` size filter; the ids need not form the dense range `{1, …, N}` of the
claim, because the dense remap happens before the size filter and survivors
keep their pre-filter ids (see the counterexample). -/
theorem lesionIds_nodup_bounded (data : List ℚ) (W H D : ℕ) :
    ((findConnectedComponents data (W, H, D)).lesions.map Lesion.id).Nodup ∧
    ∀ r ∈ (findConnectedComponents data (W, H, D)).lesions,
      1 ≤ r.id ∧ r.id ≤ componentCount data (W, H, D) := by
  by_cases hsz : 2 ≤ W * H * D
  case neg =>
    rw [lesions_nil_small data W H D (by omega)]
    exact ⟨List.Pairwise.nil, fun r hr => absurd hr (List.not_mem_nil r)⟩
  case pos =>
  have inv1 := p1inv_pass1 data W H D hsz
  have inv2 := p2inv_pass2 W H D (pass1 data W H D) inv1.huf
  have hles : (findConnectedComponents data (W, H, D)).lesions =
      sortLesions (mkLesions (pass2 W H D (pass1 data W H D)).cents) := rfl
  constructor
  · rw [hles, ((sortLesions_perm _).map Lesion.id).nodup_iff, mkLesions_ids]
    exact inv2.hkeys.sublist ((List.filter_sublist _).map Cent.key)
  · intro r hr
    rw [hles, mem_sortLesions, mkLesions] at hr
    obtain ⟨c, hcf, rfl⟩ := List.mem_map.mp hr
    obtain ⟨hcm, _⟩ := List.mem_filter.mp hcf
    obtain ⟨hcnt, hne⟩ := inv2.hcnt c hcm
    obtain ⟨i, hi⟩ := List.exists_mem_of_ne_nil _ hne
    rw [occList, List.mem_filter] at hi
    have hb := finalMapped_bounds (of_decide_eq_true hi.2)
    exact hb


/-- **C1**: for a mask whose foreground consists of two internally connected
clusters `A` and `B`: when the clusters are disjoint and no voxel of `A` is
26-adjacent to a voxel of `B` (so they are separated by background in every
26-connected direction), `findConnectedComponents` gives every voxel of `A`
one final id, every voxel of `B` one final id, and the two ids differ; and
if instead even a single 26-link (e.g. a diagonal corner link) joins a
voxel of `A` to a voxel of `B`, every voxel of both clusters receives the
same final id. -/
theorem labeling_two_clusters (data : List ℚ) (W H D : ℕ) (A B : Finset ℕ)
    (hlen : data.length = W * H * D) (hsz : 2 ≤ W * H * D)
    (hAfg : ∀ i ∈ A, isFg data i) (hBfg : ∀ i ∈ B, isFg data i)
    (hAconn : ∀ u ∈ A, ∀ v ∈ A, connected data W H D u v)
    (hBconn : ∀ u ∈ B, ∀ v ∈ B, connected data W H D u v) :
    ((∀ i ∈ A, i ∉ B) → (∀ u ∈ A, ∀ v ∈ B, ¬ adj26 W H u v) →
      (∀ i, isFg data i → i ∈ A ∨ i ∈ B) →
      (∀ u ∈ A, ∀ v ∈ A,
        finalLabel data (W, H, D) u = finalLabel data (W, H, D) v) ∧
      (∀ u ∈ B, ∀ v ∈ B,
        finalLabel data (W, H, D) u = finalLabel data (W, H, D) v) ∧
      (∀ u ∈ A, ∀ v ∈ B,
        finalLabel data (W, H, D) u ≠ finalLabel data (W, H, D) v)) ∧
    ((∃ u ∈ A, ∃ v ∈ B, adj26 W H u v) →
      ∀ u ∈ A, ∀ v ∈ B,
        finalLabel data (W, H, D) u = finalLabel data (W, H, D) v) := by
  have hflt : ∀ {i : ℕ}, isFg data i → i < W * H * D :=
    fun h => isFg_lt data W H D hlen h
  constructor
  · intro hdisj hsep hcov
    have hstay : ∀ {u v : ℕ}, connected data W H D u v → u ∈ A → v ∈ A := by
      intro u v h
      induction h with
      | refl => exact id
      | tail hab hbc ih =>
          intro hu
          have hb := ih hu
          rcases hcov _ hbc.2.2.2.1 with h1 | h1
          · exact h1
          · exact absurd hbc.2.2.2.2 (hsep _ hb _ h1)
    refine ⟨?_, ?_, ?_⟩
    · intro u hu v hv
      exact (finalLabel_fg_iff_connected data W H D hsz (hflt (hAfg u hu))
        (hflt (hAfg v hv)) (hAfg u hu) (hAfg v hv)).mpr (hAconn u hu v hv)
    · intro u hu v hv
      exact (finalLabel_fg_iff_connected data W H D hsz (hflt (hBfg u hu))
        (hflt (hBfg v hv)) (hBfg u hu) (hBfg v hv)).mpr (hBconn u hu v hv)
    · intro u hu v hv heq
      have hc := (finalLabel_fg_iff_connected data W H D hsz (hflt (hAfg u hu))
        (hflt (hBfg v hv)) (hAfg u hu) (hBfg v hv)).mp heq
      exact (hdisj v (hstay hc hu)) hv
  · rintro ⟨a, ha, b, hb, hadj⟩ u hu v hv
    have hedge : fgAdj data W H D a b :=
      ⟨hflt (hAfg a ha), hflt (hBfg b hb), hAfg a ha, hBfg b hb, hadj⟩
    have hc : connected data W H D u v :=
      ((hAconn u hu a ha).trans (Relation.ReflTransGen.single hedge)).trans
        (hBconn b hb v hv)
    exact (finalLabel_fg_iff_connected data W H D hsz (hflt (hAfg u hu))
      (hflt (hBfg v hv)) (hAfg u hu) (hBfg v hv)).mpr hc


/-- **C1** (witness): on the 5-voxel line `[1,0,0,0,1]` the separated
singleton clusters `{0}` and `{4}` get different final ids, and on a 4×4
slice with foreground at `(0,0)`, `(1,1)`, `(2,2)` the diagonal link joins
the clusters `{0}` and `{5, 10}` into one id, both read off by applying
the theorem at these inputs. -/
theorem labeling_two_clusters_witness :
    finalLabel [1, 0, 0, 0, 1] (5, 1, 1) 0 ≠
      finalLabel [1, 0, 0, 0, 1] (5, 1, 1) 4 ∧
    finalLabel [1, 0, 0, 0, 0, 1, 0, 0, 0, 0, 1, 0, 0, 0, 0, 0] (4, 4, 1) 0 =
      finalLabel [1, 0, 0, 0, 0, 1, 0, 0, 0, 0, 1, 0, 0, 0, 0, 0] (4, 4, 1) 5 := by
  constructor
  · have h := labeling_two_clusters [1, 0, 0, 0, 1] 5 1 1 {0} {4} rfl (by norm_num)
      (of_decide_eq_true (by with_unfolding_all rfl))
      (of_decide_eq_true (by with_unfolding_all rfl))
      (by
        intro u hu v hv
        rw [Finset.mem_singleton] at hu hv
        subst hu
        subst hv
        exact Relation.ReflTransGen.refl)
      (by
        intro u hu v hv
        rw [Finset.mem_singleton] at hu hv
        subst hu
        subst hv
        exact Relation.ReflTransGen.refl)
    refine (h.1 (by decide) (by decide) ?_) |>.2.2 0 (by decide) 4 (by decide)
    intro i hfg
    have hi : i < 5 := isFg_lt [1, 0, 0, 0, 1] 5 1 1 rfl hfg
    interval_cases i
    · exact Or.inl (by decide)
    · exact absurd hfg (of_decide_eq_false (by with_unfolding_all rfl))
    · exact absurd hfg (of_decide_eq_false (by with_unfolding_all rfl))
    · exact absurd hfg (of_decide_eq_false (by with_unfolding_all rfl))
    · exact Or.inr (by decide)
  · have e1 : fgAdj [1, 0, 0, 0, 0, 1, 0, 0, 0, 0, 1, 0, 0, 0, 0, 0] 4 4 1 5 10 :=
      ⟨by decide, by decide, of_decide_eq_true (by with_unfolding_all rfl),
        of_decide_eq_true (by with_unfolding_all rfl), by decide⟩
    have h := labeling_two_clusters
      [1, 0, 0, 0, 0, 1, 0, 0, 0, 0, 1, 0, 0, 0, 0, 0] 4 4 1 {0} {5, 10}
      rfl (by norm_num)
      (of_decide_eq_true (by with_unfolding_all rfl))
      (of_decide_eq_true (by with_unfolding_all rfl))
      (by
        intro u hu v hv
        rw [Finset.mem_singleton] at hu hv
        subst hu
        subst hv
        exact Relation.ReflTransGen.refl)
      (by
        intro u hu v hv
        fin_cases hu <;> fin_cases hv
        · exact Relation.ReflTransGen.refl
        · exact Relation.ReflTransGen.single e1
        · exact Relation.ReflTransGen.single (fgAdj_symm e1)
        · exact Relation.ReflTransGen.refl)
    exact h.2 ⟨0, by decide, 5, by decide, by decide⟩ 0 (by decide) 5 (by decide)


/-- **C2**: a maximal connected foreground component appears in the emitted
lesion list iff its voxel count exceeds 10, and when present its `volume`
field equals the voxel count.  `S` is the component of `s0`: a set of
foreground voxels, all connected to `s0`, containing every foreground voxel
connected to `s0`. -/
theorem lesionList_size_filter (data : List ℚ) (W H D : ℕ) (S : Finset ℕ)
    (s0 : ℕ) (hlen : data.length = W * H * D)
    (hs0 : s0 ∈ S) (hSfg : ∀ i ∈ S, isFg data i)
    (hconn : ∀ i ∈ S, connected data W H D s0 i)
    (hmax : ∀ i, isFg data i → connected data W H D s0 i → i ∈ S) :
    (10 < S.card →
      ∃ r ∈ (findConnectedComponents data (W, H, D)).lesions,
        r.id = finalLabel data (W, H, D) s0 ∧ r.volume = S.card) ∧
    (S.card ≤ 10 →
      ∀ r ∈ (findConnectedComponents data (W, H, D)).lesions,
        r.id ≠ finalLabel data (W, H, D) s0) := by
  by_cases hsz : 2 ≤ W * H * D
  case neg =>
    have hsub : S ⊆ Finset.range (W * H * D) := fun i hi =>
      Finset.mem_range.mpr (isFg_lt data W H D hlen (hSfg i hi))
    have hcard1 : S.card ≤ W * H * D := by
      have h2 := Finset.card_le_card hsub
      rw [Finset.card_range] at h2
      exact h2
    constructor
    · intro hcard
      omega
    · intro _ r hr
      rw [lesions_nil_small data W H D (by omega)] at hr
      exact absurd hr (List.not_mem_nil r)
  case pos =>
  have inv1 := p1inv_pass1 data W H D hsz
  have inv2 := p2inv_pass2 W H D (pass1 data W H D) inv1.huf
  have hfg0 : isFg data s0 := hSfg s0 hs0
  have hs0lt : s0 < W * H * D := isFg_lt data W H D hlen hfg0
  obtain ⟨hm0, hr0⟩ := finalMapped_fg data W H D hsz hs0lt hfg0
  have hfl0 : finalMapped (rootLabels (pass1 data W H D)) (pass1 data W H D) s0 =
      some (finalLabel data (W, H, D) s0) := by
    rw [finalLabel_eq_finalOf data W H D hsz, finalOf, hm0, Option.getD_some]
  have hocc_iff : ∀ i : ℕ,
      i ∈ occList (rootLabels (pass1 data W H D)) (pass1 data W H D) (W * H * D)
        (finalLabel data (W, H, D) s0) ↔ i ∈ S := by
    intro i
    rw [occList, List.mem_filter, List.mem_range]
    constructor
    · rintro ⟨hi, hdm⟩
      have hfm := of_decide_eq_true hdm
      have hact : 0 < (pass1 data W H D).labels.getD i 0 := by
        by_contra hz
        rw [finalMapped, if_neg hz] at hfm
        exact Option.noConfusion hfm
      have hfgi : isFg data i := by
        by_contra hbg
        rw [inv1.hbg i hi hbg] at hact
        omega
      have heq : finalLabel data (W, H, D) i = finalLabel data (W, H, D) s0 := by
        rw [finalLabel_eq_finalOf data W H D hsz, finalOf, hfm, Option.getD_some]
      have hc := (finalLabel_fg_iff_connected data W H D hsz hi hs0lt
        hfgi hfg0).mp heq
      exact hmax i hfgi (connected_symm hc)
    · intro hiS
      have hfgi := hSfg i hiS
      have hi := isFg_lt data W H D hlen hfgi
      obtain ⟨hmi, _⟩ := finalMapped_fg data W H D hsz hi hfgi
      have heq : finalLabel data (W, H, D) i = finalLabel data (W, H, D) s0 :=
        (finalLabel_fg_iff_connected data W H D hsz hi hs0lt hfgi hfg0).mpr
          (connected_symm (hconn i hiS))
      refine ⟨hi, decide_eq_true ?_⟩
      have hfo : finalOf (rootLabels (pass1 data W H D)) (pass1 data W H D) i =
          finalLabel data (W, H, D) s0 := by
        rw [← finalLabel_eq_finalOf data W H D hsz, heq]
      rw [finalOf, hmi, Option.getD_some] at hfo
      rw [hmi, hfo]
  have hoccnd : (occList (rootLabels (pass1 data W H D)) (pass1 data W H D)
      (W * H * D) (finalLabel data (W, H, D) s0)).Nodup :=
    (List.nodup_range (W * H * D)).filter _
  have hocclen : (occList (rootLabels (pass1 data W H D)) (pass1 data W H D)
      (W * H * D) (finalLabel data (W, H, D) s0)).length = S.card := by
    rw [← List.toFinset_card_of_nodup hoccnd]
    congr 1
    apply Finset.ext
    intro i
    rw [List.mem_toFinset]
    exact hocc_iff i
  obtain ⟨c, hcm, hck⟩ := inv2.hkey _ s0 hs0lt hfl0
  obtain ⟨hccnt, _⟩ := inv2.hcnt c hcm
  rw [hck, hocclen] at hccnt
  have hles : (findConnectedComponents data (W, H, D)).lesions =
      sortLesions (mkLesions (pass2 W H D (pass1 data W H D)).cents) := rfl
  constructor
  · intro hcard
    refine ⟨{ id := c.key
              x := jsRound ((c.xs : ℚ) / (c.cnt : ℚ))
              y := jsRound ((c.ys : ℚ) / (c.cnt : ℚ))
              z := jsRound ((c.zs : ℚ) / (c.cnt : ℚ))
              volume := c.cnt }, ?_, hck, hccnt⟩
    rw [hles, mem_sortLesions, mkLesions]
    exact List.mem_map.mpr ⟨c, List.mem_filter.mpr
      ⟨hcm, decide_eq_true (by omega)⟩, rfl⟩
  · intro hcard r hr hid
    rw [hles, mem_sortLesions, mkLesions] at hr
    obtain ⟨c2, hc2f, rfl⟩ := List.mem_map.mp hr
    obtain ⟨hc2m, hc2cnt⟩ := List.mem_filter.mp hc2f
    have hkeq : c2.key = c.key := by
      rw [hck]
      exact hid
    have hc2c : c2 = c := List.inj_on_of_nodup_map inv2.hkeys hc2m hcm hkeq
    subst hc2c
    have hgt := of_decide_eq_true hc2cnt
    omega


/-- **C2** (witness): an 11-voxel line component appears in the lesion list
with volume 11, and a 10-voxel line component is absent, both obtained by
applying the theorem to the full line component of voxel `0`. -/
theorem lesionList_size_filter_witness :
    (∃ r ∈ (findConnectedComponents (List.replicate 11 (1 : ℚ)) (11, 1, 1)).lesions,
        r.id = finalLabel (List.replicate 11 (1 : ℚ)) (11, 1, 1) 0 ∧
        r.volume = (Finset.range 11).card) ∧
    (∀ r ∈ (findConnectedComponents (List.replicate 10 (1 : ℚ)) (10, 1, 1)).lesions,
        r.id ≠ finalLabel (List.replicate 10 (1 : ℚ)) (10, 1, 1) 0) := by
  constructor
  · have hstep : ∀ j : ℕ, j < 10 →
        fgAdj (List.replicate 11 (1 : ℚ)) 11 1 1 j (j + 1) := by
      intro j hj
      interval_cases j <;>
        exact ⟨by decide, by decide, of_decide_eq_true (by with_unfolding_all rfl),
          of_decide_eq_true (by with_unfolding_all rfl), by decide⟩
    have hchain : ∀ i : ℕ, i ≤ 10 →
        connected (List.replicate 11 (1 : ℚ)) 11 1 1 0 i := by
      intro i
      induction i with
      | zero => exact fun _ => Relation.ReflTransGen.refl
      | succ n ih =>
          intro hn
          exact Relation.ReflTransGen.tail (ih (by omega)) (hstep n (by omega))
    have h := lesionList_size_filter (List.replicate 11 (1 : ℚ)) 11 1 1
      (Finset.range 11) 0 rfl (by decide)
      (of_decide_eq_true (by with_unfolding_all rfl))
      (by
        intro i hi
        rw [Finset.mem_range] at hi
        exact hchain i (by omega))
      (by
        intro i hfg hc
        have hlt := isFg_lt (List.replicate 11 (1 : ℚ)) 11 1 1 rfl hfg
        exact Finset.mem_range.mpr (by omega))
    exact h.1 (by decide)
  · have hstep : ∀ j : ℕ, j < 9 →
        fgAdj (List.replicate 10 (1 : ℚ)) 10 1 1 j (j + 1) := by
      intro j hj
      interval_cases j <;>
        exact ⟨by decide, by decide, of_decide_eq_true (by with_unfolding_all rfl),
          of_decide_eq_true (by with_unfolding_all rfl), by decide⟩
    have hchain : ∀ i : ℕ, i ≤ 9 →
        connected (List.replicate 10 (1 : ℚ)) 10 1 1 0 i := by
      intro i
      induction i with
      | zero => exact fun _ => Relation.ReflTransGen.refl
      | succ n ih =>
          intro hn
          exact Relation.ReflTransGen.tail (ih (by omega)) (hstep n (by omega))
    have h := lesionList_size_filter (List.replicate 10 (1 : ℚ)) 10 1 1
      (Finset.range 10) 0 rfl (by decide)
      (of_decide_eq_true (by with_unfolding_all rfl))
      (by
        intro i hi
        rw [Finset.mem_range] at hi
        exact hchain i (by omega))
      (by
        intro i hfg hc
        have hlt := isFg_lt (List.replicate 10 (1 : ℚ)) 10 1 1 rfl hfg
        exact Finset.mem_range.mpr (by omega))
    exact h.2 (by decide)

end CvsView
